import Mathlib

/-!
# XPackSecurityPutUserService (xpack_security_put_user.go)

A shallow embedding of the put-user service of the Elasticsearch client:
the request descriptor with its setters, `Validate`, `buildURL` and `Do`,
together with the library routines `Do` runs through (`fmt.Errorf` on a
string slice, `url.Values.Set`, `uritemplates.Expand`, `json.Unmarshal`
into `XPackSecurityPutUserResponse`). The client is a parameter: `Do` receives
what `PerformRequest` returns and records the calls it makes.

Go strings and byte slices are lists of bytes. A Go `error` is `Option GoError`
(`none` is the nil error); a nilable pointer or interface value is an `Option`.
-/

namespace Elastic

/-! ## Bytes and strings -/

/-- One Go byte. -/
abbrev Byte := Fin 256

/-- Go `string` and `[]byte`: a finite sequence of bytes. -/
abbrev GoString := List Byte

/-- UTF-8 encoding of a code point, as the Go compiler stores a string literal. -/
def utf8EncodeRune (c : Nat) : GoString :=
  if c < 0x80 then [Fin.ofNat c]
  else if c < 0x800 then [Fin.ofNat (0xC0 + c / 64), Fin.ofNat (0x80 + c % 64)]
  else if c < 0x10000 then
    [Fin.ofNat (0xE0 + c / 4096), Fin.ofNat (0x80 + c / 64 % 64), Fin.ofNat (0x80 + c % 64)]
  else
    [Fin.ofNat (0xF0 + c / 262144), Fin.ofNat (0x80 + c / 4096 % 64),
     Fin.ofNat (0x80 + c / 64 % 64), Fin.ofNat (0x80 + c % 64)]

/-- The bytes of a string literal. -/
def goStr (s : String) : GoString :=
  s.data.flatMap (fun c => utf8EncodeRune c.toNat)

/-! ## Errors -/

/-- The dynamic values a Go `error` takes in this program. -/
inductive GoError where
  /-- An error made by `errors.New` or `fmt.Errorf`, carrying its message. -/
  | errorString (msg : GoString)
  /-- The `*json.SyntaxError` of `encoding/json`. -/
  | syntaxError
  /-- The `*json.UnmarshalTypeError` of `encoding/json`; `value` describes the JSON value. -/
  | unmarshalTypeError (value : GoString)
  /-- Any other error value, identified by a tag. -/
  | other (tag : Nat)
  deriving DecidableEq, Repr

/-- The errors of the JSON decoder: a syntax error and a type error. -/
def GoError.isDecodeError : GoError → Bool
  | .syntaxError => true
  | .unmarshalTypeError _ => true
  | _ => false

deriving instance DecidableEq for Except

/-! ## fmt -/

/-- The verb `%v` of package fmt applied to a `[]string`: the elements, separated by
single spaces, between square brackets. -/
def fmtStringSlice (xs : List GoString) : GoString :=
  goStr "[" ++ List.intercalate (goStr " ") xs ++ goStr "]"

/-! ## url.Values -/

/-- Go `url.Values`, a map from a key to a list of values, as an association list
with at most one entry per key. -/
abbrev Values := List (GoString × List GoString)

/-- The method `Set` of `url.Values`: the key gets exactly the one value. -/
def Values.Set : Values → GoString → GoString → Values
  | [], key, value => [(key, [value])]
  | (k, vs) :: rest, key, value =>
    if k = key then (k, [value]) :: rest else (k, vs) :: Values.Set rest key value

/-! ## uritemplates -/

namespace uritemplates

/-- Modelled from the spec: the unreserved characters of a URI, which percent-encoding
leaves as they are: ASCII letters, digits, `-`, `.`, `_`, `~` (`uritemplates` is not among
the sources). -/
def isUnreserved (b : Byte) : Bool :=
  (0x41 ≤ b.val && b.val ≤ 0x5A) || (0x61 ≤ b.val && b.val ≤ 0x7A) ||
  (0x30 ≤ b.val && b.val ≤ 0x39) ||
  b.val == 0x2D || b.val == 0x2E || b.val == 0x5F || b.val == 0x7E

/-- Modelled from the spec: the upper-case hexadecimal digit of a value below 16
(`uritemplates` is not among the sources). -/
def hexDigit (n : Nat) : Byte :=
  if n < 10 then Fin.ofNat (0x30 + n) else Fin.ofNat (0x41 + (n - 10))

/-- Modelled from the spec: the percent-encoding of one byte, `%HH`
(`uritemplates` is not among the sources). -/
def pctEncode (b : Byte) : GoString :=
  [0x25, hexDigit (b.val / 16), hexDigit (b.val % 16)]

/-- Modelled from the spec: percent-encoding of a substituted value, byte by byte;
unreserved bytes stand for themselves (`uritemplates` is not among the sources). -/
def escape (s : GoString) : GoString :=
  s.flatMap (fun b => if isUnreserved b then [b] else pctEncode b)

/-- Modelled from the spec: a part of a path template, literal text or a variable between
braces (`uritemplates` is not among the sources). -/
inductive TemplatePart where
  | raw (text : GoString)
  | expr (name : GoString)
  deriving DecidableEq, Repr

/-- Modelled from the spec: a variable name is made of letters, digits, `_` and `.`, and is
not empty (`uritemplates` is not among the sources). -/
def validName (name : GoString) : Bool :=
  !name.isEmpty && name.all (fun b =>
    (0x41 ≤ b.val && b.val ≤ 0x5A) || (0x61 ≤ b.val && b.val ≤ 0x7A) ||
    (0x30 ≤ b.val && b.val ≤ 0x39) || b.val == 0x5F || b.val == 0x2E)

/-- Modelled from the spec: splitting a template into literal text and variables;
an unbalanced brace or a malformed variable name is an invalid template
(`uritemplates` is not among the sources). `cur` is the text read so far and
`inExpr` tells whether an opening brace is pending. -/
def parseTemplate : GoString → GoString → Bool → Except GoError (List TemplatePart)
  | [], cur, inExpr =>
    if inExpr then .error (.errorString (goStr "malformed template"))
    else .ok (if cur.isEmpty then [] else [.raw cur])
  | b :: rest, cur, true =>
    if b.val = 0x7D then
      if validName cur then
        (parseTemplate rest [] false).map (fun ps => .expr cur :: ps)
      else .error (.errorString (goStr "malformed template"))
    else if b.val = 0x7B then .error (.errorString (goStr "malformed template"))
    else parseTemplate rest (cur ++ [b]) true
  | b :: rest, cur, false =>
    if b.val = 0x7B then
      (parseTemplate rest [] true).map (fun ps => if cur.isEmpty then ps else .raw cur :: ps)
    else if b.val = 0x7D then .error (.errorString (goStr "malformed template"))
    else parseTemplate rest (cur ++ [b]) false

/-- Modelled from the spec: the value of a variable in the `map[string]string` of
expansions (`uritemplates` is not among the sources). -/
def lookup (values : List (GoString × GoString)) (name : GoString) : Option GoString :=
  (values.find? (fun kv => kv.1 = name)).map (fun kv => kv.2)

/-- Modelled from the spec: the rendering of one template part; literal text stands for
itself, a variable for its percent-encoded value (`uritemplates` is not among the
sources). -/
def expandPart (values : List (GoString × GoString)) : TemplatePart → GoString
  | .raw text => text
  | .expr name =>
    match lookup values name with
    | some v => escape v
    | none => []

/-- Modelled from the spec: `uritemplates.Expand(path, expansions)` substitutes every
variable of the template by its percent-encoded value and fails on an invalid
template (`uritemplates` is not among the sources). -/
def Expand (path : GoString) (expansions : List (GoString × GoString)) :
    Except GoError GoString :=
  match parseTemplate path [] false with
  | .error err => .error err
  | .ok parts => .ok (parts.flatMap (expandPart expansions))

end uritemplates

/-! ## The service -/

/-- The options of `Client.PerformRequest` that the service fills in. -/
structure PerformRequestOptions (β : Type) where
  Method : GoString
  Path : GoString
  Params : Values
  Body : Option β

/-- The response of the client: status code and raw body. -/
structure Response where
  StatusCode : Nat
  Body : GoString
  deriving DecidableEq, Repr

/-- The shared HTTP client: `PerformRequest` takes the context and the options and returns
a response or an error. `κ` is the type of contexts, `β` of request payloads. -/
structure Client (κ β : Type) where
  PerformRequest : κ → PerformRequestOptions β → Except GoError Response

/-- The service: `body` is an `interface{}`, `none` being the nil interface. -/
structure XPackSecurityPutUserService (κ β : Type) where
  client : Client κ β
  pretty : Bool
  username : GoString
  body : Option β

/-- The creation information of the response. -/
structure XPackSecurityPutUser where
  Created : Bool
  deriving DecidableEq, Repr

/-- The response of `XPackSecurityPutUserService.Do`. -/
structure XPackSecurityPutUserResponse where
  User : XPackSecurityPutUser
  deriving DecidableEq, Repr

/-! ## encoding/json

`json.Unmarshal` first checks that the whole input is one syntactically valid JSON
text and then stores the value into the target. The model reads the input into a
syntax tree (which fails exactly when the input is not valid JSON) and then stores
the tree into a target of type `XPackSecurityPutUserResponse`. An error carries its
kind and, for a type error, the description of the JSON value, not its offset. The
syntax check also refuses a text in which more than `maxNestingDepth` arrays and
objects are open at once, as the library does from Go 1.15 on. -/

namespace json

/-- A JSON value as it is written. A string holds the bytes between its quotes, escape
sequences still unresolved; a number holds its text. -/
inductive Value where
  | null
  | bool (b : Bool)
  | number (text : GoString)
  | string (raw : GoString)
  | array (elems : List Value)
  | object (members : List (GoString × Value))

/-- JSON white space: space, tab, carriage return, line feed. -/
def isSpace (b : Byte) : Bool :=
  b.val == 0x20 || b.val == 0x09 || b.val == 0x0D || b.val == 0x0A

/-- Drops leading white space. -/
def skipSpace : GoString → GoString
  | [] => []
  | b :: rest => if isSpace b then skipSpace rest else b :: rest

/-- A decimal digit. -/
def isDigit (b : Byte) : Bool := 0x30 ≤ b.val && b.val ≤ 0x39

/-- A hexadecimal digit of either case. -/
def isHex (b : Byte) : Bool :=
  isDigit b || (0x61 ≤ b.val && b.val ≤ 0x66) || (0x41 ≤ b.val && b.val ≤ 0x46)

/-- The characters that may follow a backslash, `u` apart: `b f n r t \ / "`. -/
def isSimpleEscape (b : Byte) : Bool :=
  b.val == 0x62 || b.val == 0x66 || b.val == 0x6E || b.val == 0x72 || b.val == 0x74 ||
  b.val == 0x5C || b.val == 0x2F || b.val == 0x22

/-- Reads a string literal whose opening quote has been consumed: the raw bytes up to
the closing quote, and the input after it. Control characters and malformed escape
sequences are syntax errors. -/
def scanString : GoString → Option (GoString × GoString)
  | [] => none
  | b :: rest =>
    if b.val = 0x22 then some ([], rest)
    else if b.val = 0x5C then
      match rest with
      | [] => none
      | e :: rest1 =>
        if isSimpleEscape e then
          (scanString rest1).map (fun p => (b :: e :: p.1, p.2))
        else if e.val = 0x75 then
          match rest1 with
          | h1 :: h2 :: h3 :: h4 :: rest2 =>
            if isHex h1 && isHex h2 && isHex h3 && isHex h4 then
              (scanString rest2).map (fun p => (b :: e :: h1 :: h2 :: h3 :: h4 :: p.1, p.2))
            else none
          | _ => none
        else none
    else if b.val < 0x20 then none
    else (scanString rest).map (fun p => (b :: p.1, p.2))

/-- Splits off the leading decimal digits. -/
def takeDigits : GoString → GoString × GoString
  | [] => ([], [])
  | b :: rest =>
    if isDigit b then ((takeDigits rest).1.cons b, (takeDigits rest).2) else ([], b :: rest)

/-- The optional exponent of a number: `e` or `E`, an optional sign, digits. -/
def scanExponent (input : GoString) : Option (GoString × GoString) :=
  match input with
  | e :: rest =>
    if e.val = 0x65 ∨ e.val = 0x45 then
      match rest with
      | sg :: rest1 =>
        if sg.val = 0x2B ∨ sg.val = 0x2D then
          let ds := takeDigits rest1
          if ds.1.isEmpty then none else some (e :: sg :: ds.1, ds.2)
        else
          let ds := takeDigits rest
          if ds.1.isEmpty then none else some (e :: ds.1, ds.2)
      | [] => none
    else some ([], input)
  | [] => some ([], input)

/-- The optional fraction of a number: a dot and at least one digit. -/
def scanFraction (input : GoString) : Option (GoString × GoString) :=
  match input with
  | dot :: rest =>
    if dot.val = 0x2E then
      let ds := takeDigits rest
      if ds.1.isEmpty then none else some (dot :: ds.1, ds.2)
    else some ([], input)
  | [] => some ([], input)

/-- The integer part of a number: `0`, or a non-zero digit followed by digits. -/
def scanInteger (input : GoString) : Option (GoString × GoString) :=
  match input with
  | d :: rest =>
    if d.val = 0x30 then some ([d], rest)
    else if isDigit d then
      let ds := takeDigits rest
      some (d :: ds.1, ds.2)
    else none
  | [] => none

/-- Reads a number: an optional minus sign, the integer part, an optional fraction and
an optional exponent. Returns its text and the input after it. -/
def scanNumber (input : GoString) : Option (GoString × GoString) :=
  let signed : GoString × GoString :=
    match input with
    | m :: rest => if m.val = 0x2D then ([m], rest) else ([], input)
    | [] => ([], input)
  match scanInteger signed.2 with
  | none => none
  | some (int, r1) =>
    match scanFraction r1 with
    | none => none
    | some (frac, r2) =>
      match scanExponent r2 with
      | none => none
      | some (exp, r3) => some (signed.1 ++ int ++ frac ++ exp, r3)

/-- Strips a given literal text from the front of the input. -/
def stripLiteral : GoString → GoString → Option GoString
  | [], input => some input
  | _ :: _, [] => none
  | c :: cs, b :: rest => if c = b then stripLiteral cs rest else none

mutual
/-- Reads one JSON value, leading white space skipped. The first argument bounds the number
of nested calls. -/
def parseValue : Nat → GoString → Option (Value × GoString)
  | 0, _ => none
  | fuel + 1, input =>
    match skipSpace input with
    | [] => none
    | b :: rest =>
      if b.val = 0x7B then
        match skipSpace rest with
        | [] => none
        | c :: rest1 =>
          if c.val = 0x7D then some (.object [], rest1)
          else (parseMembers fuel (c :: rest1)).map (fun p => (.object p.1, p.2))
      else if b.val = 0x5B then
        match skipSpace rest with
        | [] => none
        | c :: rest1 =>
          if c.val = 0x5D then some (.array [], rest1)
          else (parseElements fuel (c :: rest1)).map (fun p => (.array p.1, p.2))
      else if b.val = 0x22 then
        (scanString rest).map (fun p => (.string p.1, p.2))
      else if b.val = 0x2D ∨ isDigit b then
        (scanNumber (b :: rest)).map (fun p => (.number p.1, p.2))
      else if b.val = 0x74 then
        (stripLiteral (goStr "true") (b :: rest)).map (fun r => (.bool true, r))
      else if b.val = 0x66 then
        (stripLiteral (goStr "false") (b :: rest)).map (fun r => (.bool false, r))
      else if b.val = 0x6E then
        (stripLiteral (goStr "null") (b :: rest)).map (fun r => (.null, r))
      else none
/-- Reads the elements of a non-empty array up to and including the closing bracket. -/
def parseElements : Nat → GoString → Option (List Value × GoString)
  | 0, _ => none
  | fuel + 1, input =>
    match parseValue fuel input with
    | none => none
    | some (v, rest) =>
      match skipSpace rest with
      | [] => none
      | c :: rest1 =>
        if c.val = 0x2C then (parseElements fuel rest1).map (fun p => (v :: p.1, p.2))
        else if c.val = 0x5D then some ([v], rest1)
        else none
/-- Reads the members of a non-empty object up to and including the closing brace. -/
def parseMembers : Nat → GoString → Option (List (GoString × Value) × GoString)
  | 0, _ => none
  | fuel + 1, input =>
    match skipSpace input with
    | [] => none
    | q :: rest =>
      if q.val = 0x22 then
        match scanString rest with
        | none => none
        | some (key, rest1) =>
          match skipSpace rest1 with
          | [] => none
          | colon :: rest2 =>
            if colon.val = 0x3A then
              match parseValue fuel rest2 with
              | none => none
              | some (v, rest3) =>
                match skipSpace rest3 with
                | [] => none
                | c :: rest4 =>
                  if c.val = 0x2C then
                    (parseMembers fuel rest4).map (fun p => ((key, v) :: p.1, p.2))
                  else if c.val = 0x7D then some ([(key, v)], rest4)
                  else none
            else none
      else none
end

/-- The constant `maxNestingDepth` of the scanner: the number of arrays and objects that
may be open at once. -/
def maxNestingDepth : Nat := 10000

/-- The largest number of arrays and objects open at once in the rest of the input, as
the scanner counts them: `[` and `{` open one, `]` and `}` close one, and the bytes of a
string literal count for nothing. `inString` tells whether a string literal is open,
`escaped` whether its last byte was a backslash that escapes the next one, `cur` is the
number open so far. -/
def maxOpen : Bool → Bool → Nat → GoString → Nat
  | _, _, _, [] => 0
  | true, true, cur, _ :: rest => maxOpen true false cur rest
  | true, false, cur, b :: rest =>
    if b.val = 0x5C then maxOpen true true cur rest
    else if b.val = 0x22 then maxOpen false false cur rest
    else maxOpen true false cur rest
  | false, _, cur, b :: rest =>
    if b.val = 0x22 then maxOpen true false cur rest
    else if b.val = 0x5B ∨ b.val = 0x7B then
      max (cur + 1) (maxOpen false false (cur + 1) rest)
    else if b.val = 0x5D ∨ b.val = 0x7D then maxOpen false false (cur - 1) rest
    else maxOpen false false cur rest

/-- The nesting depth of a text: the largest number of arrays and objects open at once. -/
def nestingDepth (data : GoString) : Nat := maxOpen false false 0 data

/-- Reads a whole JSON text: one value, white space around it, nothing else, nested no
deeper than `maxNestingDepth`. `none` is a syntax error. Every nested call consumes a
byte, so twice the length is fuel enough (`Valid_iff_JSONText` below: the texts read are
exactly those of the grammar that are nested no deeper than the limit). -/
def parse (data : GoString) : Option Value :=
  match parseValue (2 * data.length) data with
  | none => none
  | some (v, rest) =>
    if (skipSpace rest).isEmpty ∧ nestingDepth data ≤ maxNestingDepth then some v else none

/-- The syntax check of `json.Unmarshal` (`checkValid`). -/
def Valid (data : GoString) : Bool := (parse data).isSome

/-- The value of a hexadecimal digit. -/
def hexVal (b : Byte) : Nat :=
  if isDigit b then b.val - 0x30
  else if 0x61 ≤ b.val ∧ b.val ≤ 0x66 then b.val - 0x61 + 10
  else b.val - 0x41 + 10

/-- The number written by four hexadecimal digits. -/
def hex4 (h1 h2 h3 h4 : Byte) : Nat :=
  ((hexVal h1 * 16 + hexVal h2) * 16 + hexVal h3) * 16 + hexVal h4

/-- The length of the well-formed UTF-8 sequence at the front of the input (`utf8.DecodeRune`),
or 0 when the first byte starts none. Bytes below `0x80` have length 1. -/
def runeLen : GoString → Nat
  | [] => 0
  | p0 :: rest =>
    let cont (b : Byte) : Bool := 0x80 ≤ b.val && b.val ≤ 0xBF
    let second (lo hi : Nat) : Bool :=
      match rest with
      | b1 :: _ => lo ≤ b1.val && b1.val ≤ hi
      | [] => false
    let third : Bool :=
      match rest with
      | _ :: b2 :: _ => cont b2
      | _ => false
    let fourth : Bool :=
      match rest with
      | _ :: _ :: b3 :: _ => cont b3
      | _ => false
    if p0.val < 0x80 then 1
    else if p0.val < 0xC2 then 0
    else if p0.val < 0xE0 then (if second 0x80 0xBF then 2 else 0)
    else if p0.val = 0xE0 then (if second 0xA0 0xBF && third then 3 else 0)
    else if p0.val = 0xED then (if second 0x80 0x9F && third then 3 else 0)
    else if p0.val < 0xF0 then (if second 0x80 0xBF && third then 3 else 0)
    else if p0.val = 0xF0 then (if second 0x90 0xBF && third && fourth then 4 else 0)
    else if p0.val < 0xF4 then (if second 0x80 0xBF && third && fourth then 4 else 0)
    else if p0.val = 0xF4 then (if second 0x80 0x8F && third && fourth then 4 else 0)
    else 0

/-- The character a simple escape stands for. -/
def escapeChar (e : Byte) : Byte :=
  if e.val = 0x62 then 0x08
  else if e.val = 0x66 then 0x0C
  else if e.val = 0x6E then 0x0A
  else if e.val = 0x72 then 0x0D
  else if e.val = 0x74 then 0x09
  else e

/-- The code point of an escape `\uXXXX` at the front of the input (`getu4`), `none`
when the input does not start with one. -/
def getu4 : GoString → Option Nat
  | b :: u :: h1 :: h2 :: h3 :: h4 :: _ =>
    if b.val = 0x5C ∧ u.val = 0x75 ∧ isHex h1 ∧ isHex h2 ∧ isHex h3 ∧ isHex h4 then
      some (hex4 h1 h2 h3 h4)
    else none
  | _ => none

/-- The text a string literal stands for (`unquoteBytes`), from the raw bytes between
the quotes: escape sequences are resolved, a `\u` escape becomes the UTF-8 encoding
of its code point (a surrogate pair gives one code point, a lone surrogate U+FFFD),
and a byte that starts no well-formed UTF-8 sequence becomes U+FFFD. `skip` counts
the bytes of an escape sequence still to pass over, `copy` the remaining bytes of a
multi-byte sequence being copied. -/
def unquoteAux : Nat → Nat → GoString → GoString
  | _, _, [] => []
  | skip + 1, copy, _ :: rest => unquoteAux skip copy rest
  | 0, copy + 1, b :: rest => b :: unquoteAux 0 copy rest
  | 0, 0, b :: rest =>
    if b.val = 0x5C then
      match rest.head? with
      | none => []
      | some e =>
        if e.val = 0x75 then
          match getu4 (b :: rest) with
          | none => []
          | some rr =>
            if 0xD800 ≤ rr ∧ rr < 0xE000 then
              match getu4 (rest.drop 5) with
              | some rr1 =>
                if rr < 0xDC00 ∧ 0xDC00 ≤ rr1 ∧ rr1 < 0xE000 then
                  utf8EncodeRune ((rr - 0xD800) * 1024 + (rr1 - 0xDC00) + 0x10000) ++
                    unquoteAux 11 0 rest
                else utf8EncodeRune 0xFFFD ++ unquoteAux 5 0 rest
              | none => utf8EncodeRune 0xFFFD ++ unquoteAux 5 0 rest
            else utf8EncodeRune rr ++ unquoteAux 5 0 rest
        else escapeChar e :: unquoteAux 1 0 rest
    else if b.val < 0x80 then b :: unquoteAux 0 0 rest
    else
      match runeLen (b :: rest) with
      | 0 => utf8EncodeRune 0xFFFD ++ unquoteAux 0 0 rest
      | n + 1 => b :: unquoteAux 0 n rest

/-- The text of a string literal given by its raw bytes. -/
def unquote (raw : GoString) : GoString := unquoteAux 0 0 raw

/-- Case-insensitive match of an ASCII field name `s` with an object key `t`
(`equalFoldRight`): ASCII letters match in either case, and `s`, `k` also match
U+017F (long s) and U+212A (Kelvin sign). -/
def equalFold : GoString → GoString → Bool
  | [], t => t.isEmpty
  | _ :: _, [] => false
  | sb :: s, tb :: t =>
    if tb.val < 0x80 then
      if sb = tb then equalFold s t
      else
        let sbUpper := sb.val &&& 0xDF
        if 0x41 ≤ sbUpper ∧ sbUpper ≤ 0x5A ∧ sbUpper = tb.val &&& 0xDF then equalFold s t
        else false
    else if sb.val = 0x73 ∨ sb.val = 0x53 then
      match t with
      | n1 :: t1 => if tb.val = 0xC5 ∧ n1.val = 0xBF then equalFold s t1 else false
      | [] => false
    else if sb.val = 0x6B ∨ sb.val = 0x4B then
      match t with
      | n1 :: n2 :: t2 =>
        if tb.val = 0xE2 ∧ n1.val = 0x84 ∧ n2.val = 0xAA then equalFold s t2 else false
      | _ => false
    else false

/-- The decoder state that matters here: the target field `ret.User.Created` and the first
error saved while storing. -/
structure decodeState where
  Created : Bool
  savedError : Option GoError
  deriving DecidableEq, Repr

/-- The method `saveError`: only the first error is kept. -/
def decodeState.saveError (d : decodeState) (err : GoError) : decodeState :=
  if d.savedError.isNone then { d with savedError := some err } else d

/-- The description of a JSON value in an `UnmarshalTypeError`. -/
def Value.describe : Value → GoString
  | .null => goStr "null"
  | .bool _ => goStr "bool"
  | .number _ => goStr "number"
  | .string _ => goStr "string"
  | .array _ => goStr "array"
  | .object _ => goStr "object"

/-- Storing a JSON value into the field `Created bool`: `null` leaves it unchanged, a
boolean sets it, anything else is a type error. -/
def storeCreated (v : Value) (d : decodeState) : decodeState :=
  match v with
  | .null => d
  | .bool b => { d with Created := b }
  | other => d.saveError (.unmarshalTypeError other.describe)

/-- Storing a JSON value into a `XPackSecurityPutUser`: `null` leaves it unchanged; of an
object, each member whose key matches the field name `created` is stored into
`Created`, in order, the other members are skipped; anything else is a type error. -/
def storeUser (v : Value) (d : decodeState) : decodeState :=
  match v with
  | .null => d
  | .object members =>
    members.foldl (fun d m =>
      if equalFold (goStr "created") (unquote m.1) then storeCreated m.2 d else d) d
  | other => d.saveError (.unmarshalTypeError other.describe)

/-- Storing a JSON value into a `XPackSecurityPutUserResponse`: `null` leaves it unchanged;
of an object, each member whose key matches the field name `User` is stored into `User`,
in order, the other members are skipped; anything else is a type error. -/
def storeResponse (v : Value) (d : decodeState) : decodeState :=
  match v with
  | .null => d
  | .object members =>
    members.foldl (fun d m =>
      if equalFold (goStr "User") (unquote m.1) then storeUser m.2 d else d) d
  | other => d.saveError (.unmarshalTypeError other.describe)

/-- `json.Unmarshal(data, ret)` for `ret` a pointer to a `XPackSecurityPutUserResponse`:
the value of `*ret` afterwards, and the error. On a syntax error nothing is stored. -/
def Unmarshal (data : GoString) (ret : XPackSecurityPutUserResponse) :
    XPackSecurityPutUserResponse × Option GoError :=
  match parse data with
  | none => (ret, some .syntaxError)
  | some v =>
    let d := storeResponse v { Created := ret.User.Created, savedError := none }
    ({ User := { Created := d.Created } }, d.savedError)

end json

namespace XPackSecurityPutUserService

variable {κ β : Type}

/-- `NewXPackSecurityPutUserService`: all fields but the client are zero. -/
def new (client : Client κ β) : XPackSecurityPutUserService κ β :=
  { client := client, pretty := false, username := [], body := none }

/-- `Name` sets the name of the user to create. -/
def Name (s : XPackSecurityPutUserService κ β) (username : GoString) :
    XPackSecurityPutUserService κ β :=
  { s with username := username }

/-- `Pretty` sets the pretty flag. -/
def Pretty (s : XPackSecurityPutUserService κ β) (pretty : Bool) :
    XPackSecurityPutUserService κ β :=
  { s with pretty := pretty }

/-- `Body` sets the payload. -/
def Body (s : XPackSecurityPutUserService κ β) (body : Option β) :
    XPackSecurityPutUserService κ β :=
  { s with body := body }

/-- `buildURL` builds the path and the query parameters of the operation. -/
def buildURL (s : XPackSecurityPutUserService κ β) : GoString × Values × Option GoError :=
  match uritemplates.Expand (goStr "/_security/user/{username}")
      [(goStr "username", s.username)] with
  | .error err => ([], [], some err)
  | .ok path =>
    let params : Values := []
    let params := if s.pretty then params.Set (goStr "pretty") (goStr "true") else params
    (path, params, none)

/-- `Validate` checks that the operation is valid. -/
def Validate (s : XPackSecurityPutUserService κ β) : Option GoError :=
  let invalid : List GoString := []
  let invalid := if s.username = [] then invalid ++ [goStr "Name"] else invalid
  let invalid := if s.body.isNone then invalid ++ [goStr "Body"] else invalid
  if invalid.length > 0 then
    some (.errorString (goStr "missing required fields: " ++ fmtStringSlice invalid))
  else none

end XPackSecurityPutUserService


/-- What `Do` does to the outside: a call of the client, a call of the JSON decoder. -/
inductive Event (β : Type) where
  | performRequest (opts : PerformRequestOptions β)
  | jsonUnmarshal (data : GoString)

/-- The result of `Do`: the response pointer, the error, and the calls made, in order. -/
structure DoResult (β : Type) where
  response : Option XPackSecurityPutUserResponse
  err : Option GoError
  trace : List (Event β)

namespace XPackSecurityPutUserService

variable {κ β : Type}

/-- `Do` executes the operation. -/
def Do (s : XPackSecurityPutUserService κ β) (ctx : κ) : DoResult β :=
  -- Check pre-conditions
  match s.Validate with
  | some err => { response := none, err := some err, trace := [] }
  | none =>
    -- Get URL for request
    match s.buildURL with
    | (_, _, some err) => { response := none, err := some err, trace := [] }
    | (path, params, none) =>
      -- Get HTTP response
      let opts : PerformRequestOptions β :=
        { Method := goStr "PUT", Path := path, Params := params, Body := s.body }
      match s.client.PerformRequest ctx opts with
      | .error err => { response := none, err := some err, trace := [.performRequest opts] }
      | .ok res =>
        -- Return operation response
        let ret : XPackSecurityPutUserResponse := { User := { Created := false } }
        match json.Unmarshal res.Body ret with
        | (_, some err) =>
          { response := none, err := some err,
            trace := [.performRequest opts, .jsonUnmarshal res.Body] }
        | (ret, none) =>
          { response := some ret, err := none,
            trace := [.performRequest opts, .jsonUnmarshal res.Body] }

end XPackSecurityPutUserService

/-- The number of calls of `PerformRequest` in a trace. -/
def requestCount {β : Type} (trace : List (Event β)) : Nat :=
  (trace.filter (fun e => match e with | .performRequest _ => true | _ => false)).length

/-- The number of calls of `json.Unmarshal` in a trace. -/
def decodeCount {β : Type} (trace : List (Event β)) : Nat :=
  (trace.filter (fun e => match e with | .jsonUnmarshal _ => true | _ => false)).length

/-- A mock transport: it answers every request with the given result. -/
def mockClient (κ β : Type) (result : Except GoError Response) : Client κ β :=
  { PerformRequest := fun _ _ => result }

/-! ## Reading a percent-encoded segment back -/

/-- A path segment in which every byte is an unreserved character or belongs to an escape
`%HH` with two upper-case hexadecimal digits. -/
def escapedSegment : GoString → Bool
  | [] => true
  | b :: rest =>
    if uritemplates.isUnreserved b then escapedSegment rest
    else if b.val = 0x25 then
      match rest with
      | h1 :: h2 :: rest2 =>
        let upperHex (h : Byte) : Bool :=
          (0x30 ≤ h.val && h.val ≤ 0x39) || (0x41 ≤ h.val && h.val ≤ 0x46)
        upperHex h1 && upperHex h2 && escapedSegment rest2
      | _ => false
    else false

/-- Percent-decoding with `skip` bytes of an escape still to pass over. -/
def pctDecodeAux : Nat → GoString → GoString
  | _, [] => []
  | skip + 1, _ :: rest => pctDecodeAux skip rest
  | 0, b :: rest =>
    match rest.take 2 with
    | [h1, h2] =>
      if b.val = 0x25 ∧ json.isHex h1 ∧ json.isHex h2 then
        Fin.ofNat (json.hexVal h1 * 16 + json.hexVal h2) :: pctDecodeAux 2 rest
      else b :: pctDecodeAux 0 rest
    | _ => b :: pctDecodeAux 0 rest

/-- Percent-decoding: every `%HH` stands for the byte with that hexadecimal value, every
other byte for itself. -/
def pctDecode (segment : GoString) : GoString := pctDecodeAux 0 segment

/-- The text every request path starts with. -/
def userPath : GoString := goStr "/_security/user/"

/-- The request the service sends when it is valid. -/
def XPackSecurityPutUserService.request {κ β : Type} (s : XPackSecurityPutUserService κ β) :
    PerformRequestOptions β :=
  { Method := goStr "PUT", Path := s.buildURL.1, Params := s.buildURL.2.1, Body := s.body }

/-- A service over unit contexts and payloads whose client answers every request with
`result`, configured through the setters. -/
def exampleService (result : Except GoError Response) (username : GoString) (pretty : Bool)
    (body : Option Unit) : XPackSecurityPutUserService Unit Unit :=
  (((XPackSecurityPutUserService.new (mockClient Unit Unit result)).Name username).Pretty
    pretty).Body body

/-- The JSON values a struct accepts: an object, whose members are stored, and `null`,
which stores nothing. -/
def json.Value.isObjectOrNull : json.Value → Bool
  | .null => true
  | .object _ => true
  | _ => false

/-! ## The JSON grammar

The grammar of RFC 8259 over bytes, as a specification to compare `json.parse` with.
Bytes from `0x80` up count as parts of characters; the grammar does not ask that they
form well-formed UTF-8. -/

namespace grammar

/-- White space: any number of spaces, tabs, line feeds and carriage returns. -/
def WS (w : GoString) : Prop :=
  ∀ b ∈ w, b.val = 0x20 ∨ b.val = 0x09 ∨ b.val = 0x0A ∨ b.val = 0x0D

/-- A decimal digit. -/
def Digit (b : Byte) : Prop := 0x30 ≤ b.val ∧ b.val ≤ 0x39

/-- A hexadecimal digit. -/
def HexDigit (b : Byte) : Prop :=
  Digit b ∨ (0x61 ≤ b.val ∧ b.val ≤ 0x66) ∨ (0x41 ≤ b.val ∧ b.val ≤ 0x46)

/-- The characters between the quotes of a string: unescaped characters (no control
character, quote or backslash), two-character escapes, and `\u` with four hexadecimal
digits. -/
inductive Chars : GoString → Prop where
  | nil : Chars []
  | unescaped (b : Byte) (rest : GoString) :
      0x20 ≤ b.val → b.val ≠ 0x22 → b.val ≠ 0x5C → Chars rest → Chars (b :: rest)
  | escaped (e : Byte) (rest : GoString) :
      e.val = 0x22 ∨ e.val = 0x5C ∨ e.val = 0x2F ∨ e.val = 0x62 ∨ e.val = 0x66 ∨
        e.val = 0x6E ∨ e.val = 0x72 ∨ e.val = 0x74 →
      Chars rest → Chars (0x5C :: e :: rest)
  | unicode (h1 h2 h3 h4 : Byte) (rest : GoString) :
      HexDigit h1 → HexDigit h2 → HexDigit h3 → HexDigit h4 → Chars rest →
      Chars (0x5C :: 0x75 :: h1 :: h2 :: h3 :: h4 :: rest)

/-- One or more digits. -/
def Digits (t : GoString) : Prop := t ≠ [] ∧ ∀ b ∈ t, Digit b

/-- The integer part: `0`, or a digit from 1 to 9 followed by digits. -/
def Int (t : GoString) : Prop :=
  t = [0x30] ∨ ∃ d ds, t = d :: ds ∧ 0x31 ≤ d.val ∧ d.val ≤ 0x39 ∧ ∀ b ∈ ds, Digit b

/-- The fraction: a dot and digits. -/
def Frac (t : GoString) : Prop := ∃ ds, t = 0x2E :: ds ∧ Digits ds

/-- The exponent: `e` or `E`, an optional sign, digits. -/
def Exp (t : GoString) : Prop :=
  ∃ e sign ds, t = e :: (sign ++ ds) ∧ (e.val = 0x65 ∨ e.val = 0x45) ∧
    (sign = [] ∨ sign = [0x2B] ∨ sign = [0x2D]) ∧ Digits ds

/-- A number: an optional minus, the integer part, an optional fraction, an optional
exponent. -/
def Number (t : GoString) : Prop :=
  ∃ minus int frac exp, t = minus ++ int ++ frac ++ exp ∧ (minus = [] ∨ minus = [0x2D]) ∧
    Int int ∧ (frac = [] ∨ Frac frac) ∧ (exp = [] ∨ Exp exp)

/-- The syntactic categories with nesting: a value, the text between the brackets of a
non-empty array, the text between the braces of a non-empty object. -/
inductive Cat where
  | value
  | elements
  | members

/-- The texts of each category. -/
inductive Derives : Cat → GoString → Prop where
  | null : Derives .value (goStr "null")
  | true : Derives .value (goStr "true")
  | false : Derives .value (goStr "false")
  | number (t : GoString) : Number t → Derives .value t
  | string (cs : GoString) : Chars cs → Derives .value (0x22 :: cs ++ [0x22])
  | emptyArray (w : GoString) : WS w → Derives .value (0x5B :: w ++ [0x5D])
  | array (es : GoString) : Derives .elements es → Derives .value (0x5B :: es ++ [0x5D])
  | emptyObject (w : GoString) : WS w → Derives .value (0x7B :: w ++ [0x7D])
  | object (ms : GoString) : Derives .members ms → Derives .value (0x7B :: ms ++ [0x7D])
  | element (w1 v w2 : GoString) :
      WS w1 → Derives .value v → WS w2 → Derives .elements (w1 ++ v ++ w2)
  | elements (w1 v w2 es : GoString) :
      WS w1 → Derives .value v → WS w2 → Derives .elements es →
      Derives .elements (w1 ++ v ++ w2 ++ 0x2C :: es)
  | member (w1 key w2 w3 v w4 : GoString) :
      WS w1 → Chars key → WS w2 → WS w3 → Derives .value v → WS w4 →
      Derives .members (w1 ++ 0x22 :: key ++ 0x22 :: w2 ++ 0x3A :: w3 ++ v ++ w4)
  | members (w1 key w2 w3 v w4 ms : GoString) :
      WS w1 → Chars key → WS w2 → WS w3 → Derives .value v → WS w4 →
      Derives .members ms →
      Derives .members (w1 ++ 0x22 :: key ++ 0x22 :: w2 ++ 0x3A :: w3 ++ v ++ w4 ++ 0x2C :: ms)

/-- A JSON text: one value with white space around it. -/
def JSONText (t : GoString) : Prop :=
  ∃ w1 v w2, t = w1 ++ v ++ w2 ∧ WS w1 ∧ Derives .value v ∧ WS w2

/-- The JSON text `data` has the value `v`: it is `v` with white space around it. -/
def TextOf (data v : GoString) : Prop :=
  ∃ w1 w2, data = w1 ++ v ++ w2 ∧ WS w1 ∧ Derives .value v ∧ WS w2

/-- The value is an object: braces around white space or around members. -/
def IsObject (v : GoString) : Prop :=
  ∃ ms, v = 0x7B :: ms ++ [0x7D] ∧ (WS ms ∨ Derives .members ms)

end grammar

/-- The input after a number does not go on as a number: it is empty or starts with no
digit, dot, `e` or `E`. -/
def numberEnds (rest : GoString) : Prop :=
  ∀ c r, rest = c :: r →
    json.isDigit c = false ∧ c.val ≠ 0x2E ∧ c.val ≠ 0x65 ∧ c.val ≠ 0x45

/-- The input after a value in a JSON text: it is empty or starts with white space, a
comma, a closing bracket or a closing brace. -/
def valueEnds (rest : GoString) : Prop :=
  ∀ c r, rest = c :: r →
    json.isSpace c = true ∨ c.val = 0x2C ∨ c.val = 0x5D ∨ c.val = 0x7D

/-- What the parser does on a text of each category, given fuel of twice its length. -/
def parsesAs : grammar.Cat → GoString → Prop
  | .value, t => ∀ fuel rest, 2 * t.length ≤ fuel → valueEnds rest →
      ∃ v, json.parseValue fuel (t ++ rest) = some (v, rest)
  | .elements, t => ∀ fuel rest, 2 * t.length + 1 ≤ fuel →
      ∃ vs, json.parseElements fuel (t ++ 0x5D :: rest) = some (vs, rest)
  | .members, t => ∀ fuel rest, 2 * t.length + 1 ≤ fuel →
      ∃ ms, json.parseMembers fuel (t ++ 0x7D :: rest) = some (ms, rest)

/-! ## The parser accepts only texts of the grammar -/

open grammar in
theorem WS_nil : WS [] := by
  intro b hb; cases hb

open grammar in
theorem WS_append {w1 w2 : GoString} (h1 : WS w1) (h2 : WS w2) : WS (w1 ++ w2) := by
  intro b hb
  rcases List.mem_append.mp hb with h | h
  · exact h1 b h
  · exact h2 b h

set_option maxRecDepth 100000 in
theorem isSpace_iff (b : Byte) :
    json.isSpace b = true ↔ (b.val = 0x20 ∨ b.val = 0x09 ∨ b.val = 0x0A ∨ b.val = 0x0D) := by
  revert b; decide

set_option maxRecDepth 100000 in
theorem isDigit_iff (b : Byte) : json.isDigit b = true ↔ grammar.Digit b := by
  unfold grammar.Digit
  revert b; decide

set_option maxRecDepth 100000 in
theorem isHex_iff (b : Byte) : json.isHex b = true ↔ grammar.HexDigit b := by
  unfold grammar.HexDigit grammar.Digit
  revert b; decide

set_option maxRecDepth 100000 in
theorem isSimpleEscape_iff (e : Byte) :
    json.isSimpleEscape e = true ↔
      (e.val = 0x22 ∨ e.val = 0x5C ∨ e.val = 0x2F ∨ e.val = 0x62 ∨ e.val = 0x66 ∨
        e.val = 0x6E ∨ e.val = 0x72 ∨ e.val = 0x74) := by
  revert e; decide

theorem skipSpace_spec (input : GoString) :
    ∃ w, input = w ++ json.skipSpace input ∧ grammar.WS w := by
  induction input with
  | nil => exact ⟨[], rfl, WS_nil⟩
  | cons b rest ih =>
    rw [json.skipSpace]
    by_cases hb : json.isSpace b = true
    · obtain ⟨w, hw, hws⟩ := ih
      refine ⟨b :: w, ?_, ?_⟩
      · rw [if_pos hb, List.cons_append, ← hw]
      · intro c hc
        rcases List.mem_cons.mp hc with h | h
        · rw [h]; exact (isSpace_iff b).mp hb
        · exact hws c h
    · rw [if_neg hb]
      exact ⟨[], rfl, WS_nil⟩

theorem skipSpace_cons {input rest : GoString} {c : Byte}
    (h : json.skipSpace input = c :: rest) :
    ∃ w, input = w ++ c :: rest ∧ grammar.WS w := by
  obtain ⟨w, hw, hws⟩ := skipSpace_spec input
  exact ⟨w, h ▸ hw, hws⟩

theorem byte_eq_of_val {b : Byte} {n : Nat} (hn : n < 256) (h : b.val = n) :
    b = Fin.ofNat n := by
  apply Fin.ext
  rw [h]
  exact (Nat.mod_eq_of_lt hn).symm

theorem scanString_spec : ∀ (n : Nat) (input : GoString), input.length ≤ n →
    ∀ s rest, json.scanString input = some (s, rest) →
      input = s ++ 0x22 :: rest ∧ grammar.Chars s := by
  intro n
  induction n with
  | zero =>
    intro input hlen s rest h
    cases input with
    | nil => simp [json.scanString] at h
    | cons b t => simp at hlen
  | succ n ih =>
    intro input hlen s rest h
    cases input with
    | nil => simp [json.scanString] at h
    | cons b t =>
      rw [json.scanString.eq_def] at h
      dsimp only at h
      split at h
      · next hq =>
        simp only [Option.some.injEq, Prod.mk.injEq] at h
        obtain ⟨rfl, rfl⟩ := h
        have : b = 0x22 := byte_eq_of_val (by decide) hq
        exact ⟨by rw [this]; rfl, .nil⟩
      · next hq =>
        split at h
        · next hbs =>
          have hb : b = 0x5C := byte_eq_of_val (by decide) hbs
          subst hb
          cases t with
          | nil => simp at h
          | cons e t1 =>
            dsimp only at h
            split at h
            · next hesc =>
              cases hr : json.scanString t1 with
              | none => simp [hr] at h
              | some p =>
                obtain ⟨s1, r1⟩ := p
                simp only [hr, Option.map_some', Option.some.injEq, Prod.mk.injEq] at h
                obtain ⟨rfl, rfl⟩ := h
                obtain ⟨h1, h2⟩ := ih t1 (by simp at hlen; omega) s1 r1 hr
                exact ⟨by rw [h1]; rfl, .escaped e s1 ((isSimpleEscape_iff e).mp hesc) h2⟩
            · next hesc =>
              split at h
              · next hu =>
                have he : e = 0x75 := byte_eq_of_val (by decide) hu
                subst he
                split at h
                · next h1 h2 h3 h4 t2 =>
                  split at h
                  · next hhex =>
                    simp only [Bool.and_eq_true] at hhex
                    obtain ⟨⟨⟨x1, x2⟩, x3⟩, x4⟩ := hhex
                    cases hr : json.scanString t2 with
                    | none => simp [hr] at h
                    | some p =>
                      obtain ⟨s1, r1⟩ := p
                      simp only [hr, Option.map_some', Option.some.injEq, Prod.mk.injEq] at h
                      obtain ⟨rfl, rfl⟩ := h
                      obtain ⟨k1, k2⟩ := ih t2 (by simp at hlen; omega) s1 r1 hr
                      exact ⟨by rw [k1]; rfl,
                        .unicode h1 h2 h3 h4 s1 ((isHex_iff _).mp x1) ((isHex_iff _).mp x2)
                          ((isHex_iff _).mp x3) ((isHex_iff _).mp x4) k2⟩
                  · simp at h
                · simp at h
              · simp at h
        · next hbs =>
          split at h
          · simp at h
          · next hctl =>
            cases hr : json.scanString t with
            | none => simp [hr] at h
            | some p =>
              obtain ⟨s1, r1⟩ := p
              simp only [hr, Option.map_some', Option.some.injEq, Prod.mk.injEq] at h
              obtain ⟨rfl, rfl⟩ := h
              obtain ⟨h1, h2⟩ := ih t (by simpa using hlen) s1 r1 hr
              exact ⟨by rw [h1]; rfl, .unescaped b s1 (by omega) hq hbs h2⟩

theorem takeDigits_spec (input : GoString) :
    input = (json.takeDigits input).1 ++ (json.takeDigits input).2 ∧
    ∀ b ∈ (json.takeDigits input).1, grammar.Digit b := by
  induction input with
  | nil => exact ⟨rfl, by intro b hb; cases hb⟩
  | cons b rest ih =>
    rw [json.takeDigits]
    by_cases hb : json.isDigit b = true
    · simp only [hb, if_true]
      refine ⟨by rw [List.cons_append, ← ih.1], ?_⟩
      intro c hc
      rcases List.mem_cons.mp hc with h | h
      · rw [h]; exact (isDigit_iff b).mp hb
      · exact ih.2 c h
    · simp only [hb]
      exact ⟨rfl, by intro c hc; cases hc⟩

theorem digits_of_takeDigits (input : GoString)
    (h : (json.takeDigits input).1.isEmpty = false) :
    grammar.Digits (json.takeDigits input).1 := by
  refine ⟨?_, (takeDigits_spec input).2⟩
  intro h0
  rw [h0] at h
  simp at h

theorem scanInteger_spec {input int rest : GoString}
    (h : json.scanInteger input = some (int, rest)) :
    input = int ++ rest ∧ grammar.Int int := by
  unfold json.scanInteger at h
  cases input with
  | nil => simp at h
  | cons d t =>
    dsimp only at h
    split at h
    · next hz =>
      simp only [Option.some.injEq, Prod.mk.injEq] at h
      obtain ⟨rfl, rfl⟩ := h
      have : d = 0x30 := byte_eq_of_val (by decide) hz
      exact ⟨rfl, Or.inl (by rw [this])⟩
    · next hz =>
      split at h
      · next hd =>
        simp only [Option.some.injEq, Prod.mk.injEq] at h
        obtain ⟨rfl, rfl⟩ := h
        have hd' := (isDigit_iff d).mp hd
        refine ⟨by rw [List.cons_append, ← (takeDigits_spec t).1], Or.inr ⟨d, _, rfl, ?_, hd'.2,
          (takeDigits_spec t).2⟩⟩
        have := hd'.1
        omega
      · simp at h

theorem scanFraction_spec {input frac rest : GoString}
    (h : json.scanFraction input = some (frac, rest)) :
    input = frac ++ rest ∧ (frac = [] ∨ grammar.Frac frac) := by
  unfold json.scanFraction at h
  cases input with
  | nil =>
    simp only [Option.some.injEq, Prod.mk.injEq] at h
    obtain ⟨rfl, rfl⟩ := h
    exact ⟨rfl, Or.inl rfl⟩
  | cons d t =>
    dsimp only at h
    split at h
    · next hdot =>
      have hd : d = 0x2E := byte_eq_of_val (by decide) hdot
      split at h
      · simp at h
      · next hne =>
        simp only [Option.some.injEq, Prod.mk.injEq] at h
        obtain ⟨rfl, rfl⟩ := h
        refine ⟨by rw [List.cons_append, ← (takeDigits_spec t).1], Or.inr ⟨_, by rw [hd],
          digits_of_takeDigits t (by simpa using hne)⟩⟩
    · simp only [Option.some.injEq, Prod.mk.injEq] at h
      obtain ⟨rfl, rfl⟩ := h
      exact ⟨rfl, Or.inl rfl⟩

theorem scanExponent_spec {input exp rest : GoString}
    (h : json.scanExponent input = some (exp, rest)) :
    input = exp ++ rest ∧ (exp = [] ∨ grammar.Exp exp) := by
  unfold json.scanExponent at h
  cases input with
  | nil =>
    simp only [Option.some.injEq, Prod.mk.injEq] at h
    obtain ⟨rfl, rfl⟩ := h
    exact ⟨rfl, Or.inl rfl⟩
  | cons e t =>
    dsimp only at h
    split at h
    · next he =>
      cases t with
      | nil => simp at h
      | cons sg t1 =>
        dsimp only at h
        split at h
        · next hsg =>
          split at h
          · simp at h
          · next hne =>
            simp only [Option.some.injEq, Prod.mk.injEq] at h
            obtain ⟨rfl, rfl⟩ := h
            refine ⟨by rw [List.cons_append, List.cons_append, ← (takeDigits_spec t1).1],
              Or.inr ⟨e, [sg], _, rfl, he, ?_, digits_of_takeDigits t1 (by simpa using hne)⟩⟩
            rcases hsg with hsg | hsg
            · exact Or.inr (Or.inl (by rw [byte_eq_of_val (by decide) hsg]; rfl))
            · exact Or.inr (Or.inr (by rw [byte_eq_of_val (by decide) hsg]; rfl))
        · split at h
          · simp at h
          · next hne =>
            simp only [Option.some.injEq, Prod.mk.injEq] at h
            obtain ⟨rfl, rfl⟩ := h
            refine ⟨by rw [List.cons_append, ← (takeDigits_spec (sg :: t1)).1],
              Or.inr ⟨e, [], _, rfl, he, Or.inl rfl,
                digits_of_takeDigits (sg :: t1) (by simpa using hne)⟩⟩
    · simp only [Option.some.injEq, Prod.mk.injEq] at h
      obtain ⟨rfl, rfl⟩ := h
      exact ⟨rfl, Or.inl rfl⟩

theorem scanNumber_spec {input t rest : GoString}
    (h : json.scanNumber input = some (t, rest)) :
    input = t ++ rest ∧ grammar.Number t := by
  unfold json.scanNumber at h
  dsimp only at h
  have hsign : ∃ minus r0, (match input with
      | m :: rest => if m.val = 0x2D then ([m], rest) else ([], input)
      | [] => (([], input) : GoString × GoString)) = (minus, r0) ∧ input = minus ++ r0 ∧
      (minus = [] ∨ minus = [0x2D]) := by
    cases input with
    | nil => exact ⟨[], [], rfl, rfl, Or.inl rfl⟩
    | cons m r =>
      by_cases hm : m.val = 0x2D
      · exact ⟨[m], r, by simp [hm], rfl,
          Or.inr (by rw [byte_eq_of_val (by decide) hm]; rfl)⟩
      · exact ⟨[], m :: r, by simp [hm], rfl, Or.inl rfl⟩
  obtain ⟨minus, r0, hs, hin, hminus⟩ := hsign
  rw [hs] at h
  dsimp only at h
  cases hi : json.scanInteger r0 with
  | none => simp [hi] at h
  | some p1 =>
    obtain ⟨int, r1⟩ := p1
    rw [hi] at h
    dsimp only at h
    cases hf : json.scanFraction r1 with
    | none => simp [hf] at h
    | some p2 =>
      obtain ⟨frac, r2⟩ := p2
      rw [hf] at h
      dsimp only at h
      cases hx : json.scanExponent r2 with
      | none => simp [hx] at h
      | some p3 =>
        obtain ⟨exp, r3⟩ := p3
        rw [hx] at h
        simp only [Option.some.injEq, Prod.mk.injEq] at h
        obtain ⟨rfl, rfl⟩ := h
        obtain ⟨a1, a2⟩ := scanInteger_spec hi
        obtain ⟨b1, b2⟩ := scanFraction_spec hf
        obtain ⟨c1, c2⟩ := scanExponent_spec hx
        refine ⟨?_, minus, int, frac, exp, rfl, hminus, a2, b2, c2⟩
        rw [hin, a1, b1, c1]
        simp [List.append_assoc]

theorem stripLiteral_spec : ∀ (lit input rest : GoString),
    json.stripLiteral lit input = some rest → input = lit ++ rest := by
  intro lit
  induction lit with
  | nil =>
    intro input rest h
    rw [json.stripLiteral] at h
    simp only [Option.some.injEq] at h
    rw [h]; rfl
  | cons c cs ih =>
    intro input rest h
    cases input with
    | nil => simp [json.stripLiteral] at h
    | cons b t =>
      rw [json.stripLiteral] at h
      split at h
      · next hc =>
        rw [hc, List.cons_append, ← ih t rest h]
      · simp at h

open grammar in
theorem parse_sound_aux (fuel : Nat) :
    (∀ input v rest, json.parseValue fuel input = some (v, rest) →
      ∃ w t, input = w ++ t ++ rest ∧ WS w ∧ Derives .value t) ∧
    (∀ input vs rest, json.parseElements fuel input = some (vs, rest) →
      ∀ w0, WS w0 → ∃ es, w0 ++ input = es ++ 0x5D :: rest ∧ Derives .elements es) ∧
    (∀ input ms rest, json.parseMembers fuel input = some (ms, rest) →
      ∀ w0, WS w0 → ∃ t, w0 ++ input = t ++ 0x7D :: rest ∧ Derives .members t) := by
  induction fuel with
  | zero =>
    refine ⟨?_, ?_, ?_⟩
    · intro input v rest h; rw [json.parseValue] at h; cases h
    · intro input vs rest h; rw [json.parseElements] at h; cases h
    · intro input ms rest h; rw [json.parseMembers] at h; cases h
  | succ fuel ih =>
    obtain ⟨ihV, ihE, ihM⟩ := ih
    refine ⟨?_, ?_, ?_⟩
    · intro input v rest h
      rw [json.parseValue] at h
      cases hs : json.skipSpace input with
      | nil => rw [hs] at h; cases h
      | cons b r =>
        rw [hs] at h
        dsimp only at h
        obtain ⟨w, hw, hws⟩ := skipSpace_cons hs
        split at h
        · next hb =>
          have hb' : b = 0x7B := byte_eq_of_val (by decide) hb
          cases hs2 : json.skipSpace r with
          | nil => rw [hs2] at h; cases h
          | cons c r1 =>
            rw [hs2] at h
            dsimp only at h
            obtain ⟨w1, hw1, hws1⟩ := skipSpace_cons hs2
            split at h
            · next hc =>
              have hc' : c = 0x7D := byte_eq_of_val (by decide) hc
              simp only [Option.some.injEq, Prod.mk.injEq] at h
              obtain ⟨_, rfl⟩ := h
              refine ⟨w, 0x7B :: w1 ++ [0x7D], ?_, hws, .emptyObject w1 hws1⟩
              rw [hw, hw1, hb', hc']
              simp [List.append_assoc]
            · obtain ⟨p, hp, hpe⟩ := Option.map_eq_some'.mp h
              obtain ⟨ms, r2⟩ := p
              simp only [Prod.mk.injEq] at hpe
              obtain ⟨_, rfl⟩ := hpe
              obtain ⟨t, ht, hd⟩ := ihM _ _ _ hp w1 hws1
              refine ⟨w, 0x7B :: t ++ [0x7D], ?_, hws, .object t hd⟩
              rw [hw, hw1, ht, hb']
              simp [List.append_assoc]
        · split at h
          · next hb =>
            have hb' : b = 0x5B := byte_eq_of_val (by decide) hb
            cases hs2 : json.skipSpace r with
            | nil => rw [hs2] at h; cases h
            | cons c r1 =>
              rw [hs2] at h
              dsimp only at h
              obtain ⟨w1, hw1, hws1⟩ := skipSpace_cons hs2
              split at h
              · next hc =>
                have hc' : c = 0x5D := byte_eq_of_val (by decide) hc
                simp only [Option.some.injEq, Prod.mk.injEq] at h
                obtain ⟨_, rfl⟩ := h
                refine ⟨w, 0x5B :: w1 ++ [0x5D], ?_, hws, .emptyArray w1 hws1⟩
                rw [hw, hw1, hb', hc']
                simp [List.append_assoc]
              · obtain ⟨p, hp, hpe⟩ := Option.map_eq_some'.mp h
                obtain ⟨vs, r2⟩ := p
                simp only [Prod.mk.injEq] at hpe
                obtain ⟨_, rfl⟩ := hpe
                obtain ⟨t, ht, hd⟩ := ihE _ _ _ hp w1 hws1
                refine ⟨w, 0x5B :: t ++ [0x5D], ?_, hws, .array t hd⟩
                rw [hw, hw1, ht, hb']
                simp [List.append_assoc]
          · split at h
            · next hb =>
              have hb' : b = 0x22 := byte_eq_of_val (by decide) hb
              obtain ⟨p, hp, hpe⟩ := Option.map_eq_some'.mp h
              obtain ⟨s, r2⟩ := p
              simp only [Prod.mk.injEq] at hpe
              obtain ⟨_, rfl⟩ := hpe
              obtain ⟨h1, h2⟩ := scanString_spec _ r (le_refl _) s r2 hp
              refine ⟨w, 0x22 :: s ++ [0x22], ?_, hws, .string s h2⟩
              rw [hw, h1, hb']
              simp [List.append_assoc]
            · split at h
              · obtain ⟨p, hp, hpe⟩ := Option.map_eq_some'.mp h
                obtain ⟨t, r2⟩ := p
                simp only [Prod.mk.injEq] at hpe
                obtain ⟨_, rfl⟩ := hpe
                obtain ⟨h1, h2⟩ := scanNumber_spec hp
                refine ⟨w, t, ?_, hws, .number t h2⟩
                rw [hw, h1]
                simp [List.append_assoc]
              · split at h
                · obtain ⟨r2, hp, hpe⟩ := Option.map_eq_some'.mp h
                  simp only [Prod.mk.injEq] at hpe
                  obtain ⟨_, rfl⟩ := hpe
                  refine ⟨w, goStr "true", ?_, hws, .true⟩
                  rw [hw, stripLiteral_spec _ _ _ hp]
                  simp [List.append_assoc]
                · split at h
                  · obtain ⟨r2, hp, hpe⟩ := Option.map_eq_some'.mp h
                    simp only [Prod.mk.injEq] at hpe
                    obtain ⟨_, rfl⟩ := hpe
                    refine ⟨w, goStr "false", ?_, hws, .false⟩
                    rw [hw, stripLiteral_spec _ _ _ hp]
                    simp [List.append_assoc]
                  · split at h
                    · obtain ⟨r2, hp, hpe⟩ := Option.map_eq_some'.mp h
                      simp only [Prod.mk.injEq] at hpe
                      obtain ⟨_, rfl⟩ := hpe
                      refine ⟨w, goStr "null", ?_, hws, .null⟩
                      rw [hw, stripLiteral_spec _ _ _ hp]
                      simp [List.append_assoc]
                    · cases h
    · intro input vs rest h w0 hw0
      rw [json.parseElements] at h
      cases hv : json.parseValue fuel input with
      | none => rw [hv] at h; cases h
      | some p =>
        obtain ⟨v, r⟩ := p
        rw [hv] at h
        dsimp only at h
        obtain ⟨w, t, hin, hws, hd⟩ := ihV _ _ _ hv
        cases hs : json.skipSpace r with
        | nil => rw [hs] at h; cases h
        | cons c r1 =>
          rw [hs] at h
          dsimp only at h
          obtain ⟨w2, hw2, hws2⟩ := skipSpace_cons hs
          split at h
          · next hc =>
            have hc' : c = 0x2C := byte_eq_of_val (by decide) hc
            obtain ⟨p, hp, hpe⟩ := Option.map_eq_some'.mp h
            obtain ⟨vs1, r2⟩ := p
            simp only [Prod.mk.injEq] at hpe
            obtain ⟨_, rfl⟩ := hpe
            obtain ⟨es, hes, hde⟩ := ihE _ _ _ hp [] WS_nil
            refine ⟨(w0 ++ w) ++ t ++ w2 ++ 0x2C :: es, ?_,
              .elements _ _ _ _ (WS_append hw0 hws) hd hws2 hde⟩
            rw [List.nil_append] at hes
            rw [hin, hw2, hes, hc']
            simp [List.append_assoc]
          · split at h
            · next hc =>
              have hc' : c = 0x5D := byte_eq_of_val (by decide) hc
              simp only [Option.some.injEq, Prod.mk.injEq] at h
              obtain ⟨_, rfl⟩ := h
              refine ⟨(w0 ++ w) ++ t ++ w2, ?_, .element _ _ _ (WS_append hw0 hws) hd hws2⟩
              rw [hin, hw2, hc']
              simp [List.append_assoc]
            · cases h
    · intro input ms rest h w0 hw0
      rw [json.parseMembers] at h
      cases hs : json.skipSpace input with
      | nil => rw [hs] at h; cases h
      | cons q r =>
        rw [hs] at h
        dsimp only at h
        obtain ⟨w1, hw1, hws1⟩ := skipSpace_cons hs
        split at h
        · next hq =>
          have hq' : q = 0x22 := byte_eq_of_val (by decide) hq
          cases hk : json.scanString r with
          | none => rw [hk] at h; cases h
          | some p =>
            obtain ⟨key, r1⟩ := p
            rw [hk] at h
            dsimp only at h
            obtain ⟨hkey, hchars⟩ := scanString_spec _ r (le_refl _) key r1 hk
            cases hs2 : json.skipSpace r1 with
            | nil => rw [hs2] at h; cases h
            | cons colon r2 =>
              rw [hs2] at h
              dsimp only at h
              obtain ⟨w2, hw2, hws2⟩ := skipSpace_cons hs2
              split at h
              · next hcol =>
                have hcol' : colon = 0x3A := byte_eq_of_val (by decide) hcol
                cases hv : json.parseValue fuel r2 with
                | none => rw [hv] at h; cases h
                | some p =>
                  obtain ⟨v, r3⟩ := p
                  rw [hv] at h
                  dsimp only at h
                  obtain ⟨w3, t, hin, hws3, hd⟩ := ihV _ _ _ hv
                  cases hs4 : json.skipSpace r3 with
                  | nil => rw [hs4] at h; cases h
                  | cons c r4 =>
                    rw [hs4] at h
                    dsimp only at h
                    obtain ⟨w4, hw4, hws4⟩ := skipSpace_cons hs4
                    split at h
                    · next hc =>
                      have hc' : c = 0x2C := byte_eq_of_val (by decide) hc
                      obtain ⟨p, hp, hpe⟩ := Option.map_eq_some'.mp h
                      obtain ⟨ms1, r5⟩ := p
                      simp only [Prod.mk.injEq] at hpe
                      obtain ⟨_, rfl⟩ := hpe
                      obtain ⟨tm, htm, hdm⟩ := ihM _ _ _ hp [] WS_nil
                      refine ⟨(w0 ++ w1) ++ 0x22 :: key ++ 0x22 :: w2 ++ 0x3A :: w3 ++ t ++ w4 ++
                          0x2C :: tm, ?_,
                        .members _ _ _ _ _ _ _ (WS_append hw0 hws1) hchars hws2 hws3 hd hws4 hdm⟩
                      rw [List.nil_append] at htm
                      rw [hw1, hkey, hw2, hin, hw4, htm, hq', hcol', hc']
                      simp [List.append_assoc]
                    · split at h
                      · next hc =>
                        have hc' : c = 0x7D := byte_eq_of_val (by decide) hc
                        simp only [Option.some.injEq, Prod.mk.injEq] at h
                        obtain ⟨_, rfl⟩ := h
                        refine ⟨(w0 ++ w1) ++ 0x22 :: key ++ 0x22 :: w2 ++ 0x3A :: w3 ++ t ++ w4,
                          ?_, .member _ _ _ _ _ _ (WS_append hw0 hws1) hchars hws2 hws3 hd hws4⟩
                        rw [hw1, hkey, hw2, hin, hw4, hq', hcol', hc']
                        simp [List.append_assoc]
                      · cases h
              · cases h
        · cases h

theorem parse_sound (data : GoString) (v : json.Value) (h : json.parse data = some v) :
    grammar.JSONText data := by
  unfold json.parse at h
  cases hv : json.parseValue (2 * data.length) data with
  | none => rw [hv] at h; cases h
  | some p =>
    obtain ⟨v1, rest⟩ := p
    rw [hv] at h
    dsimp only at h
    obtain ⟨w, t, hin, hws, hd⟩ := (parse_sound_aux _).1 _ _ _ hv
    obtain ⟨w2, hw2, hws2⟩ := skipSpace_spec rest
    split at h
    · next he =>
      have : json.skipSpace rest = [] := by simpa using he.1
      rw [this, List.append_nil] at hw2
      exact ⟨w, t, w2, by rw [hin, hw2], hws, hd, hws2⟩
    · cases h

theorem parse_depth (data : GoString) (v : json.Value) (h : json.parse data = some v) :
    json.nestingDepth data ≤ json.maxNestingDepth := by
  unfold json.parse at h
  cases hv : json.parseValue (2 * data.length) data with
  | none => rw [hv] at h; cases h
  | some p =>
    obtain ⟨v1, rest⟩ := p
    rw [hv] at h
    dsimp only at h
    split at h
    · next he => exact he.2
    · cases h

/-! ## The parser accepts every text of the grammar -/

theorem skipSpace_ws_append (w x : GoString) (hw : grammar.WS w) :
    json.skipSpace (w ++ x) = json.skipSpace x := by
  induction w with
  | nil => rfl
  | cons b w ih =>
    have hb : json.isSpace b = true := (isSpace_iff b).mpr (hw b (List.mem_cons_self _ _))
    rw [List.cons_append, json.skipSpace, if_pos hb]
    exact ih (fun c hc => hw c (List.mem_cons_of_mem _ hc))

theorem skipSpace_nonspace (c : Byte) (x : GoString) (h : json.isSpace c = false) :
    json.skipSpace (c :: x) = c :: x := by
  rw [json.skipSpace, h]
  rfl

theorem skipSpace_idem (x : GoString) : json.skipSpace (json.skipSpace x) = json.skipSpace x := by
  induction x with
  | nil => rfl
  | cons b x ih =>
    by_cases hb : json.isSpace b = true
    · rw [json.skipSpace, if_pos hb, ih]
    · rw [json.skipSpace, if_neg hb, json.skipSpace, if_neg hb]

theorem parseValue_skipSpace (fuel : Nat) (x : GoString) :
    json.parseValue fuel (json.skipSpace x) = json.parseValue fuel x := by
  cases fuel with
  | zero => rw [json.parseValue, json.parseValue]
  | succ f => rw [json.parseValue, json.parseValue, skipSpace_idem]

theorem parseElements_skipSpace (fuel : Nat) (x : GoString) :
    json.parseElements fuel (json.skipSpace x) = json.parseElements fuel x := by
  cases fuel with
  | zero => rw [json.parseElements, json.parseElements]
  | succ f => rw [json.parseElements, json.parseElements, parseValue_skipSpace]

theorem parseMembers_skipSpace (fuel : Nat) (x : GoString) :
    json.parseMembers fuel (json.skipSpace x) = json.parseMembers fuel x := by
  cases fuel with
  | zero => rw [json.parseMembers, json.parseMembers]
  | succ f => rw [json.parseMembers, json.parseMembers, skipSpace_idem]

theorem scanString_complete {s : GoString} (h : grammar.Chars s) (rest : GoString) :
    json.scanString (s ++ 0x22 :: rest) = some (s, rest) := by
  induction h with
  | nil =>
    rw [List.nil_append, json.scanString.eq_def]
    rfl
  | unescaped b t h1 h2 h3 _ ih =>
    rw [List.cons_append, json.scanString.eq_def]
    dsimp only
    rw [if_neg h2, if_neg h3, if_neg (by omega), ih]
    rfl
  | escaped e t he _ ih =>
    rw [List.cons_append, List.cons_append, json.scanString.eq_def]
    dsimp only
    rw [if_neg (by decide), if_pos (by decide), if_pos ((isSimpleEscape_iff e).mpr he), ih]
    rfl
  | unicode h1 h2 h3 h4 t x1 x2 x3 x4 _ ih =>
    have hx : (json.isHex h1 && json.isHex h2 && json.isHex h3 && json.isHex h4) = true := by
      rw [(isHex_iff h1).mpr x1, (isHex_iff h2).mpr x2, (isHex_iff h3).mpr x3,
        (isHex_iff h4).mpr x4]
      rfl
    simp only [List.cons_append]
    rw [json.scanString.eq_def]
    dsimp only
    rw [if_neg (by decide), if_pos (by decide), if_neg (by decide), if_pos (by decide),
      if_pos hx, ih]
    rfl

theorem stripLiteral_complete (lit rest : GoString) :
    json.stripLiteral lit (lit ++ rest) = some rest := by
  induction lit with
  | nil => rw [List.nil_append, json.stripLiteral]
  | cons c cs ih => rw [List.cons_append, json.stripLiteral, if_pos rfl, ih]

theorem takeDigits_complete (ds rest : GoString) (hds : ∀ b ∈ ds, grammar.Digit b)
    (hrest : ∀ c r, rest = c :: r → json.isDigit c = false) :
    json.takeDigits (ds ++ rest) = (ds, rest) := by
  induction ds with
  | nil =>
    rw [List.nil_append]
    cases rest with
    | nil => rfl
    | cons c r => rw [json.takeDigits, hrest c r rfl]; rfl
  | cons b ds ih =>
    have hb : json.isDigit b = true := (isDigit_iff b).mpr (hds b (List.mem_cons_self _ _))
    rw [List.cons_append, json.takeDigits, if_pos hb,
      ih (fun c hc => hds c (List.mem_cons_of_mem _ hc))]

theorem scanInteger_complete {int : GoString} (h : grammar.Int int) (rest : GoString)
    (hrest : ∀ c r, rest = c :: r → json.isDigit c = false) :
    json.scanInteger (int ++ rest) = some (int, rest) := by
  rcases h with h | ⟨d, ds, h, h1, h2, h3⟩
  · subst h
    rfl
  · subst h
    have hd : json.isDigit d = true := (isDigit_iff d).mpr ⟨by omega, h2⟩
    unfold json.scanInteger
    rw [List.cons_append]
    dsimp only
    rw [if_neg (by omega), if_pos hd, takeDigits_complete ds rest h3 hrest]

theorem scanFraction_complete {frac : GoString} (h : frac = [] ∨ grammar.Frac frac)
    (rest : GoString)
    (hrest : ∀ c r, rest = c :: r → json.isDigit c = false ∧ c.val ≠ 0x2E) :
    json.scanFraction (frac ++ rest) = some (frac, rest) := by
  rcases h with h | ⟨ds, h, hne, hds⟩
  · subst h
    rw [List.nil_append]
    unfold json.scanFraction
    cases rest with
    | nil => rfl
    | cons c r =>
      dsimp only
      rw [if_neg (hrest c r rfl).2]
  · subst h
    unfold json.scanFraction
    rw [List.cons_append]
    dsimp only
    rw [if_pos (by decide), takeDigits_complete ds rest hds (fun c r hc => (hrest c r hc).1)]
    dsimp only
    rw [if_neg (by cases ds with
      | nil => exact absurd rfl hne
      | cons a l => simp)]

theorem scanExponent_complete {exp : GoString} (h : exp = [] ∨ grammar.Exp exp)
    (rest : GoString)
    (hrest : ∀ c r, rest = c :: r → json.isDigit c = false ∧ c.val ≠ 0x65 ∧ c.val ≠ 0x45) :
    json.scanExponent (exp ++ rest) = some (exp, rest) := by
  have hdig : ∀ c r, rest = c :: r → json.isDigit c = false := fun c r hc => (hrest c r hc).1
  rcases h with h | ⟨e, sign, ds, h, he, hsign, hne, hds⟩
  · subst h
    rw [List.nil_append]
    unfold json.scanExponent
    cases rest with
    | nil => rfl
    | cons c r =>
      dsimp only
      rw [if_neg (by
        intro hc
        rcases hc with hc | hc
        · exact (hrest c r rfl).2.1 hc
        · exact (hrest c r rfl).2.2 hc)]
  · subst h
    have hnonempty : ∀ l : GoString, l ≠ [] → l.isEmpty = false := by
      intro l hl
      cases l with
      | nil => exact absurd rfl hl
      | cons a l => rfl
    cases ds with
    | nil => exact absurd rfl hne
    | cons d0 ds0 =>
      have hd0 : grammar.Digit d0 := hds d0 (List.mem_cons_self _ _)
      unfold json.scanExponent
      rcases hsign with hs | hs | hs
      · subst hs
        rw [List.nil_append, List.cons_append, List.cons_append]
        dsimp only
        rw [if_pos he, if_neg (by
          intro hc
          have h1 := hd0.1
          have h2 := hd0.2
          omega)]
        have := takeDigits_complete (d0 :: ds0) rest hds hdig
        rw [List.cons_append] at this
        rw [this]
        rfl
      · subst hs
        simp only [List.cons_append, List.nil_append]
        rw [if_pos he, if_pos (Or.inl (by decide))]
        have := takeDigits_complete (d0 :: ds0) rest hds hdig
        rw [List.cons_append] at this
        rw [this]
        rfl
      · subst hs
        simp only [List.cons_append, List.nil_append]
        rw [if_pos he, if_pos (Or.inr (by decide))]
        have := takeDigits_complete (d0 :: ds0) rest hds hdig
        rw [List.cons_append] at this
        rw [this]
        rfl

theorem scanNumber_complete {t : GoString} (h : grammar.Number t) (rest : GoString)
    (hrest : numberEnds rest) :
    json.scanNumber (t ++ rest) = some (t, rest) := by
  obtain ⟨minus, int, frac, exp, rfl, hminus, hint, hfrac, hexp⟩ := h
  have h3 : ∀ c r, rest = c :: r → json.isDigit c = false ∧ c.val ≠ 0x65 ∧ c.val ≠ 0x45 :=
    fun c r hc => ⟨(hrest c r hc).1, (hrest c r hc).2.2.1, (hrest c r hc).2.2.2⟩
  have h2 : ∀ c r, exp ++ rest = c :: r → json.isDigit c = false ∧ c.val ≠ 0x2E := by
    intro c r hc
    rcases hexp with he | ⟨e, sign, ds, he, hev, _⟩
    · subst he
      exact ⟨(hrest c r hc).1, (hrest c r hc).2.1⟩
    · subst he
      rw [List.cons_append] at hc
      obtain ⟨rfl, _⟩ := List.cons.inj hc
      rcases hev with hev | hev
      · exact ⟨by simp [json.isDigit, hev], by omega⟩
      · exact ⟨by simp [json.isDigit, hev], by omega⟩
  have h1 : ∀ c r, frac ++ (exp ++ rest) = c :: r → json.isDigit c = false := by
    intro c r hc
    rcases hfrac with hf | ⟨ds, hf, _⟩
    · subst hf
      exact (h2 c r hc).1
    · subst hf
      rw [List.cons_append] at hc
      obtain ⟨rfl, _⟩ := List.cons.inj hc
      decide
  have e1 := scanInteger_complete hint (frac ++ (exp ++ rest)) h1
  have e2 := scanFraction_complete hfrac (exp ++ rest) h2
  have e3 := scanExponent_complete hexp rest h3
  have hhead : ∃ d ds, int = d :: ds ∧ d.val ≠ 0x2D := by
    rcases hint with hi | ⟨d, ds, hi, hd1, hd2, _⟩
    · exact ⟨0x30, [], hi, by decide⟩
    · exact ⟨d, ds, hi, by omega⟩
  unfold json.scanNumber
  rcases hminus with hm | hm
  · subst hm
    obtain ⟨d, ds, hi, hd⟩ := hhead
    simp only [List.nil_append, List.append_assoc]
    have hsig : (match int ++ (frac ++ (exp ++ rest)) with
        | m :: r => if m.val = 0x2D then ([m], r) else ([], int ++ (frac ++ (exp ++ rest)))
        | [] => (([], int ++ (frac ++ (exp ++ rest))) : GoString × GoString)) =
        ([], int ++ (frac ++ (exp ++ rest))) := by
      rw [hi, List.cons_append]
      dsimp only
      rw [if_neg hd]
    rw [hsig]
    dsimp only
    rw [e1]
    dsimp only
    rw [e2]
    dsimp only
    rw [e3]
    rfl
  · subst hm
    simp only [List.cons_append, List.nil_append, List.append_assoc]
    rw [if_pos (by decide)]
    dsimp only
    rw [e1]
    dsimp only
    rw [e2]
    dsimp only
    rw [e3]
    rfl

set_option maxRecDepth 100000 in
theorem valueEnds_byte (c : Byte)
    (h : json.isSpace c = true ∨ c.val = 0x2C ∨ c.val = 0x5D ∨ c.val = 0x7D) :
    json.isDigit c = false ∧ c.val ≠ 0x2E ∧ c.val ≠ 0x65 ∧ c.val ≠ 0x45 := by
  revert c; decide

theorem numberEnds_of_valueEnds {rest : GoString} (h : valueEnds rest) : numberEnds rest :=
  fun c r hc => valueEnds_byte c (h c r hc)

set_option maxRecDepth 100000 in
theorem numberStart_byte (b : Byte) (h : b.val = 0x2D ∨ grammar.Digit b) :
    json.isSpace b = false ∧ b.val ≠ 0x7B ∧ b.val ≠ 0x5B ∧ b.val ≠ 0x22 ∧ b.val ≠ 0x5D ∧
      b.val ≠ 0x7D ∧ (b.val = 0x2D ∨ json.isDigit b = true) := by
  unfold grammar.Digit at h
  revert b; decide

theorem number_head {t : GoString} (h : grammar.Number t) :
    ∃ b r, t = b :: r ∧ (b.val = 0x2D ∨ grammar.Digit b) := by
  obtain ⟨minus, int, frac, exp, rfl, hminus, hint, _, _⟩ := h
  rcases hminus with hm | hm
  · subst hm
    rcases hint with hi | ⟨d, ds, hi, hd1, hd2, _⟩
    · subst hi
      exact ⟨0x30, _, rfl, Or.inr ⟨by decide, by decide⟩⟩
    · subst hi
      exact ⟨d, _, rfl, Or.inr ⟨by omega, hd2⟩⟩
  · subst hm
    exact ⟨0x2D, _, rfl, Or.inl (by decide)⟩

theorem value_head {v : GoString} (h : grammar.Derives .value v) :
    ∃ b r, v = b :: r ∧ json.isSpace b = false ∧ b.val ≠ 0x5D ∧ b.val ≠ 0x7D := by
  cases h with
  | null => exact ⟨0x6E, _, rfl, by decide, by decide, by decide⟩
  | true => exact ⟨0x74, _, rfl, by decide, by decide, by decide⟩
  | false => exact ⟨0x66, _, rfl, by decide, by decide, by decide⟩
  | number t hn =>
    obtain ⟨b, r, ht, hb⟩ := number_head hn
    obtain ⟨h1, _, _, _, h5, h6, _⟩ := numberStart_byte b hb
    exact ⟨b, r, ht, h1, h5, h6⟩
  | string cs _ => exact ⟨0x22, _, rfl, by decide, by decide, by decide⟩
  | emptyArray w _ => exact ⟨0x5B, _, rfl, by decide, by decide, by decide⟩
  | array es _ => exact ⟨0x5B, _, rfl, by decide, by decide, by decide⟩
  | emptyObject w _ => exact ⟨0x7B, _, rfl, by decide, by decide, by decide⟩
  | object ms _ => exact ⟨0x7B, _, rfl, by decide, by decide, by decide⟩

theorem elements_head {es : GoString} (h : grammar.Derives .elements es) (x : GoString) :
    ∃ c r, json.skipSpace (es ++ x) = c :: r ∧ c.val ≠ 0x5D := by
  cases h with
  | element w1 v w2 hw1 hv hw2 =>
    obtain ⟨b, r, rfl, hb, h1, _⟩ := value_head hv
    refine ⟨b, r ++ (w2 ++ x), ?_, h1⟩
    simp only [List.append_assoc]
    rw [skipSpace_ws_append _ _ hw1, List.cons_append, skipSpace_nonspace _ _ hb]
  | elements w1 v w2 es1 hw1 hv hw2 _ =>
    obtain ⟨b, r, rfl, hb, h1, _⟩ := value_head hv
    refine ⟨b, r ++ (w2 ++ (0x2C :: es1 ++ x)), ?_, h1⟩
    simp only [List.append_assoc]
    rw [skipSpace_ws_append _ _ hw1, List.cons_append, skipSpace_nonspace _ _ hb]

theorem skipSpace_ws_cons (w y : GoString) (c : Byte) (hw : grammar.WS w)
    (hc : json.isSpace c = false) : json.skipSpace (w ++ c :: y) = c :: y := by
  rw [skipSpace_ws_append _ _ hw, skipSpace_nonspace _ _ hc]

theorem members_head {ms : GoString} (h : grammar.Derives .members ms) (x : GoString) :
    ∃ c r, json.skipSpace (ms ++ x) = c :: r ∧ c.val ≠ 0x7D := by
  cases h with
  | member w1 key w2 w3 v w4 hw1 _ _ _ _ _ =>
    refine ⟨0x22, key ++ 0x22 :: (w2 ++ 0x3A :: (w3 ++ (v ++ (w4 ++ x)))), ?_, by decide⟩
    simp only [List.append_assoc, List.cons_append]
    exact skipSpace_ws_cons _ _ _ hw1 (by decide)
  | members w1 key w2 w3 v w4 ms1 hw1 _ _ _ _ _ _ =>
    refine ⟨0x22, key ++ 0x22 :: (w2 ++ 0x3A :: (w3 ++ (v ++ (w4 ++ 0x2C :: (ms1 ++ x))))),
      ?_, by decide⟩
    simp only [List.append_assoc, List.cons_append]
    exact skipSpace_ws_cons _ _ _ hw1 (by decide)

theorem valueEnds_ws_cons (w rest : GoString) (c : Byte) (hw : grammar.WS w)
    (hc : c.val = 0x2C ∨ c.val = 0x5D ∨ c.val = 0x7D) : valueEnds (w ++ c :: rest) := by
  intro d r hd
  cases w with
  | nil =>
    rw [List.nil_append] at hd
    obtain ⟨rfl, _⟩ := List.cons.inj hd
    exact Or.inr hc
  | cons a w =>
    rw [List.cons_append] at hd
    obtain ⟨rfl, _⟩ := List.cons.inj hd
    exact Or.inl ((isSpace_iff _).mpr (hw _ (List.mem_cons_self _ _)))

theorem parse_complete_aux {c : grammar.Cat} {t : GoString} (h : grammar.Derives c t) :
    parsesAs c t := by
  induction h with
  | null =>
    intro fuel rest hf _
    obtain ⟨f, rfl⟩ : ∃ f, fuel = f + 1 :=
      ⟨fuel - 1, by have : (goStr "null").length = 4 := rfl; omega⟩
    refine ⟨.null, ?_⟩
    have hs : json.stripLiteral (goStr "null") (0x6E :: ([0x75, 0x6C, 0x6C] ++ rest)) =
        some rest := stripLiteral_complete (goStr "null") rest
    show json.parseValue (f + 1) (0x6E :: ([0x75, 0x6C, 0x6C] ++ rest)) = _
    rw [json.parseValue, skipSpace_nonspace _ _ (by decide)]
    dsimp only
    rw [if_neg (by decide), if_neg (by decide), if_neg (by decide), if_neg (by decide),
      if_neg (by decide), if_neg (by decide), if_pos (by decide), hs]
    rfl
  | true =>
    intro fuel rest hf _
    obtain ⟨f, rfl⟩ : ∃ f, fuel = f + 1 :=
      ⟨fuel - 1, by have : (goStr "true").length = 4 := rfl; omega⟩
    refine ⟨.bool Bool.true, ?_⟩
    have hs : json.stripLiteral (goStr "true") (0x74 :: ([0x72, 0x75, 0x65] ++ rest)) =
        some rest := stripLiteral_complete (goStr "true") rest
    show json.parseValue (f + 1) (0x74 :: ([0x72, 0x75, 0x65] ++ rest)) = _
    rw [json.parseValue, skipSpace_nonspace _ _ (by decide)]
    dsimp only
    rw [if_neg (by decide), if_neg (by decide), if_neg (by decide), if_neg (by decide),
      if_pos (by decide), hs]
    rfl
  | false =>
    intro fuel rest hf _
    obtain ⟨f, rfl⟩ : ∃ f, fuel = f + 1 :=
      ⟨fuel - 1, by have : (goStr "false").length = 5 := rfl; omega⟩
    refine ⟨.bool Bool.false, ?_⟩
    have hs : json.stripLiteral (goStr "false") (0x66 :: ([0x61, 0x6C, 0x73, 0x65] ++ rest)) =
        some rest := stripLiteral_complete (goStr "false") rest
    show json.parseValue (f + 1) (0x66 :: ([0x61, 0x6C, 0x73, 0x65] ++ rest)) = _
    rw [json.parseValue, skipSpace_nonspace _ _ (by decide)]
    dsimp only
    rw [if_neg (by decide), if_neg (by decide), if_neg (by decide), if_neg (by decide),
      if_neg (by decide), if_pos (by decide), hs]
    rfl
  | number t hn =>
    intro fuel rest hf hr
    obtain ⟨b, r, rfl, hb⟩ := number_head hn
    obtain ⟨h1, h2, h3, h4, _, _, h7⟩ := numberStart_byte b hb
    obtain ⟨f, rfl⟩ : ∃ f, fuel = f + 1 := ⟨fuel - 1, by simp at hf; omega⟩
    refine ⟨.number (b :: r), ?_⟩
    have hs := scanNumber_complete hn rest (numberEnds_of_valueEnds hr)
    rw [List.cons_append] at hs ⊢
    rw [json.parseValue, skipSpace_nonspace _ _ h1]
    dsimp only
    rw [if_neg h2, if_neg h3, if_neg h4, if_pos h7, hs]
    rfl
  | string cs hcs =>
    intro fuel rest hf _
    obtain ⟨f, rfl⟩ : ∃ f, fuel = f + 1 := ⟨fuel - 1, by simp at hf; omega⟩
    refine ⟨.string cs, ?_⟩
    have hs := scanString_complete hcs rest
    simp only [List.cons_append, List.append_assoc, List.nil_append]
    rw [json.parseValue, skipSpace_nonspace _ _ (by decide)]
    dsimp only
    rw [if_neg (by decide), if_neg (by decide), if_pos (by decide), hs]
    rfl
  | emptyArray w hw =>
    intro fuel rest hf _
    obtain ⟨f, rfl⟩ : ∃ f, fuel = f + 1 := ⟨fuel - 1, by simp at hf; omega⟩
    refine ⟨.array [], ?_⟩
    simp only [List.cons_append, List.append_assoc, List.nil_append]
    rw [json.parseValue, skipSpace_nonspace _ _ (by decide)]
    dsimp only
    rw [if_neg (by decide), if_pos (by decide), skipSpace_ws_cons _ _ _ hw (by decide)]
    dsimp only
    rw [if_pos (by decide)]
  | array es hes ih =>
    intro fuel rest hf _
    obtain ⟨f, rfl⟩ : ∃ f, fuel = f + 1 := ⟨fuel - 1, by simp at hf; omega⟩
    obtain ⟨vs, hvs⟩ := ih f rest (by simp at hf; omega)
    obtain ⟨c, r1, hsk, hc⟩ := elements_head hes (0x5D :: rest)
    rw [← parseElements_skipSpace, hsk] at hvs
    refine ⟨.array vs, ?_⟩
    simp only [List.cons_append, List.append_assoc, List.nil_append]
    rw [json.parseValue, skipSpace_nonspace _ _ (by decide)]
    dsimp only
    rw [if_neg (by decide), if_pos (by decide), hsk]
    dsimp only
    rw [if_neg hc, hvs]
    rfl
  | emptyObject w hw =>
    intro fuel rest hf _
    obtain ⟨f, rfl⟩ : ∃ f, fuel = f + 1 := ⟨fuel - 1, by simp at hf; omega⟩
    refine ⟨.object [], ?_⟩
    simp only [List.cons_append, List.append_assoc, List.nil_append]
    rw [json.parseValue, skipSpace_nonspace _ _ (by decide)]
    dsimp only
    rw [if_pos (by decide), skipSpace_ws_cons _ _ _ hw (by decide)]
    dsimp only
    rw [if_pos (by decide)]
  | object ms hms ih =>
    intro fuel rest hf _
    obtain ⟨f, rfl⟩ : ∃ f, fuel = f + 1 := ⟨fuel - 1, by simp at hf; omega⟩
    obtain ⟨vs, hvs⟩ := ih f rest (by simp at hf; omega)
    obtain ⟨c, r1, hsk, hc⟩ := members_head hms (0x7D :: rest)
    rw [← parseMembers_skipSpace, hsk] at hvs
    refine ⟨.object vs, ?_⟩
    simp only [List.cons_append, List.append_assoc, List.nil_append]
    rw [json.parseValue, skipSpace_nonspace _ _ (by decide)]
    dsimp only
    rw [if_pos (by decide), hsk]
    dsimp only
    rw [if_neg hc, hvs]
    rfl
  | element w1 v w2 hw1 hv hw2 ih =>
    intro fuel rest hf
    obtain ⟨f, rfl⟩ : ∃ f, fuel = f + 1 := ⟨fuel - 1, by omega⟩
    obtain ⟨val, hval⟩ := ih f (w2 ++ 0x5D :: rest) (by simp at hf; omega)
      (valueEnds_ws_cons _ _ _ hw2 (Or.inr (Or.inl (by decide))))
    rw [← parseValue_skipSpace, ← skipSpace_ws_append w1 _ hw1, parseValue_skipSpace] at hval
    refine ⟨[val], ?_⟩
    simp only [List.append_assoc]
    rw [json.parseElements, hval]
    dsimp only
    rw [skipSpace_ws_cons _ _ _ hw2 (by decide)]
    dsimp only
    rw [if_neg (by decide), if_pos (by decide)]
  | elements w1 v w2 es hw1 hv hw2 hes ihv ihes =>
    intro fuel rest hf
    obtain ⟨f, rfl⟩ : ∃ f, fuel = f + 1 := ⟨fuel - 1, by omega⟩
    obtain ⟨val, hval⟩ := ihv f (w2 ++ 0x2C :: (es ++ 0x5D :: rest)) (by simp at hf; omega)
      (valueEnds_ws_cons _ _ _ hw2 (Or.inl (by decide)))
    rw [← parseValue_skipSpace, ← skipSpace_ws_append w1 _ hw1, parseValue_skipSpace] at hval
    obtain ⟨vs, hvs⟩ := ihes f rest (by simp at hf; omega)
    refine ⟨val :: vs, ?_⟩
    simp only [List.append_assoc, List.cons_append]
    rw [json.parseElements, hval]
    dsimp only
    rw [skipSpace_ws_cons _ _ _ hw2 (by decide)]
    dsimp only
    rw [if_pos (by decide), hvs]
    rfl
  | member w1 key w2 w3 v w4 hw1 hk hw2 hw3 hv hw4 ih =>
    intro fuel rest hf
    obtain ⟨f, rfl⟩ : ∃ f, fuel = f + 1 := ⟨fuel - 1, by omega⟩
    obtain ⟨val, hval⟩ := ih f (w4 ++ 0x7D :: rest) (by simp at hf; omega)
      (valueEnds_ws_cons _ _ _ hw4 (Or.inr (Or.inr (by decide))))
    rw [← parseValue_skipSpace, ← skipSpace_ws_append w3 _ hw3, parseValue_skipSpace] at hval
    refine ⟨[(key, val)], ?_⟩
    simp only [List.append_assoc, List.cons_append]
    rw [json.parseMembers, skipSpace_ws_cons _ _ _ hw1 (by decide)]
    dsimp only
    rw [if_pos (by decide), scanString_complete hk]
    dsimp only
    rw [skipSpace_ws_cons _ _ _ hw2 (by decide)]
    dsimp only
    rw [if_pos (by decide), hval]
    dsimp only
    rw [skipSpace_ws_cons _ _ _ hw4 (by decide)]
    dsimp only
    rw [if_neg (by decide), if_pos (by decide)]
  | members w1 key w2 w3 v w4 ms hw1 hk hw2 hw3 hv hw4 hms ihv ihms =>
    intro fuel rest hf
    obtain ⟨f, rfl⟩ : ∃ f, fuel = f + 1 := ⟨fuel - 1, by omega⟩
    obtain ⟨val, hval⟩ := ihv f (w4 ++ 0x2C :: (ms ++ 0x7D :: rest)) (by simp at hf; omega)
      (valueEnds_ws_cons _ _ _ hw4 (Or.inl (by decide)))
    rw [← parseValue_skipSpace, ← skipSpace_ws_append w3 _ hw3, parseValue_skipSpace] at hval
    obtain ⟨rs, hrs⟩ := ihms f rest (by simp at hf; omega)
    refine ⟨(key, val) :: rs, ?_⟩
    simp only [List.append_assoc, List.cons_append]
    rw [json.parseMembers, skipSpace_ws_cons _ _ _ hw1 (by decide)]
    dsimp only
    rw [if_pos (by decide), scanString_complete hk]
    dsimp only
    rw [skipSpace_ws_cons _ _ _ hw2 (by decide)]
    dsimp only
    rw [if_pos (by decide), hval]
    dsimp only
    rw [skipSpace_ws_cons _ _ _ hw4 (by decide)]
    dsimp only
    rw [if_pos (by decide), hrs]
    rfl

theorem parse_complete (data : GoString) (h : grammar.JSONText data)
    (hdepth : json.nestingDepth data ≤ json.maxNestingDepth) :
    ∃ v, json.parse data = some v := by
  obtain ⟨w1, v, w2, hdata, hw1, hv, hw2⟩ := h
  have hends : valueEnds w2 := by
    intro c r hc
    exact Or.inl ((isSpace_iff c).mpr (hw2 c (by rw [hc]; exact List.mem_cons_self _ _)))
  obtain ⟨val, hval⟩ := parse_complete_aux hv (2 * data.length) w2
    (by rw [hdata]; simp; omega) hends
  rw [← parseValue_skipSpace, ← skipSpace_ws_append w1 _ hw1, parseValue_skipSpace,
    ← List.append_assoc, ← hdata] at hval
  have hsp : json.skipSpace w2 = [] := by
    have := skipSpace_ws_append w2 [] hw2
    rw [List.append_nil] at this
    rw [this]
    rfl
  refine ⟨val, ?_⟩
  unfold json.parse
  rw [hval]
  dsimp only
  rw [hsp, if_pos ⟨rfl, hdepth⟩]

theorem Valid_iff_JSONText (data : GoString) :
    json.Valid data = true ↔
      grammar.JSONText data ∧ json.nestingDepth data ≤ json.maxNestingDepth := by
  constructor
  · intro h
    unfold json.Valid at h
    cases hp : json.parse data with
    | none => rw [hp] at h; cases h
    | some v => exact ⟨parse_sound data v hp, parse_depth data v hp⟩
  · intro h
    obtain ⟨v, hv⟩ := parse_complete data h.1 h.2
    unfold json.Valid
    rw [hv]
    rfl

/-! ## Lemmas on the template expansion -/

theorem Expand_username (u : GoString) :
    uritemplates.Expand (goStr "/_security/user/{username}") [(goStr "username", u)] =
      .ok (userPath ++ uritemplates.escape u) := by
  have hp : uritemplates.parseTemplate (goStr "/_security/user/{username}") [] false =
      .ok [.raw userPath, .expr (goStr "username")] := by decide
  simp [uritemplates.Expand, hp, uritemplates.expandPart, uritemplates.lookup]

theorem buildURL_eq {κ β : Type} (s : XPackSecurityPutUserService κ β) :
    s.buildURL = (userPath ++ uritemplates.escape s.username,
      (if s.pretty then [(goStr "pretty", [goStr "true"])] else []), none) := by
  unfold XPackSecurityPutUserService.buildURL
  rw [Expand_username]
  cases s.pretty <;> simp [Values.Set]

theorem escape_cons (b : Byte) (u : GoString) :
    uritemplates.escape (b :: u) =
      (if uritemplates.isUnreserved b then [b] else uritemplates.pctEncode b) ++
        uritemplates.escape u := by
  simp [uritemplates.escape]

theorem escape_unreserved (u : GoString) (h : ∀ b ∈ u, uritemplates.isUnreserved b = true) :
    uritemplates.escape u = u := by
  induction u with
  | nil => rfl
  | cons b u ih =>
    rw [escape_cons, ih (fun c hc => h c (List.mem_cons_of_mem _ hc))]
    simp [h b (List.mem_cons_self _ _)]

/-! ## Lemmas on percent-encoding, byte by byte -/

set_option maxRecDepth 100000 in
theorem pctEncode_decode (b : Byte) :
    json.isHex (uritemplates.hexDigit (b.val / 16)) = true ∧
    json.isHex (uritemplates.hexDigit (b.val % 16)) = true ∧
    (Fin.ofNat (json.hexVal (uritemplates.hexDigit (b.val / 16)) * 16 +
      json.hexVal (uritemplates.hexDigit (b.val % 16))) : Byte) = b := by
  revert b; decide

set_option maxRecDepth 100000 in
theorem unreserved_ne_percent (b : Byte) (h : uritemplates.isUnreserved b = true) :
    b.val ≠ 0x25 := by
  revert b; decide

theorem pctDecodeAux_unreserved (b : Byte) (l : GoString)
    (h : uritemplates.isUnreserved b = true) :
    pctDecodeAux 0 (b :: l) = b :: pctDecodeAux 0 l := by
  have hb := unreserved_ne_percent b h
  rw [pctDecodeAux]
  split <;> simp [hb]

theorem pctDecodeAux_pctEncode (b : Byte) (l : GoString) :
    pctDecodeAux 0 (uritemplates.pctEncode b ++ l) = b :: pctDecodeAux 0 l := by
  obtain ⟨h1, h2, h3⟩ := pctEncode_decode b
  have h0 : ((0x25 : Byte).val = 0x25 ∧
      json.isHex (uritemplates.hexDigit (b.val / 16)) = true ∧
      json.isHex (uritemplates.hexDigit (b.val % 16)) = true) := ⟨rfl, h1, h2⟩
  simp only [uritemplates.pctEncode, List.cons_append, List.nil_append]
  rw [pctDecodeAux]
  simp only [List.take_succ_cons, List.take_zero]
  rw [if_pos h0, h3, pctDecodeAux, pctDecodeAux]

theorem pctDecode_escape (u : GoString) : pctDecode (uritemplates.escape u) = u := by
  unfold pctDecode
  induction u with
  | nil => rfl
  | cons b u ih =>
    rw [escape_cons]
    by_cases h : uritemplates.isUnreserved b = true
    · simp only [h, if_true, List.singleton_append]
      rw [pctDecodeAux_unreserved b _ h, ih]
    · simp only [h]
      rw [if_neg (by simp), pctDecodeAux_pctEncode, ih]

set_option maxRecDepth 100000 in
theorem hexDigit_upper (b : Byte) :
    uritemplates.isUnreserved (uritemplates.hexDigit (b.val / 16)) = true ∧
    uritemplates.isUnreserved (uritemplates.hexDigit (b.val % 16)) = true ∧
    ((0x30 ≤ (uritemplates.hexDigit (b.val / 16)).val &&
        (uritemplates.hexDigit (b.val / 16)).val ≤ 0x39) ||
      (0x41 ≤ (uritemplates.hexDigit (b.val / 16)).val &&
        (uritemplates.hexDigit (b.val / 16)).val ≤ 0x46)) = true ∧
    ((0x30 ≤ (uritemplates.hexDigit (b.val % 16)).val &&
        (uritemplates.hexDigit (b.val % 16)).val ≤ 0x39) ||
      (0x41 ≤ (uritemplates.hexDigit (b.val % 16)).val &&
        (uritemplates.hexDigit (b.val % 16)).val ≤ 0x46)) = true := by
  revert b; decide

theorem escapedSegment_escape (u : GoString) :
    escapedSegment (uritemplates.escape u) = true := by
  induction u with
  | nil => rfl
  | cons b u ih =>
    rw [escape_cons]
    by_cases h : uritemplates.isUnreserved b = true
    · simp only [h, if_true, List.singleton_append]
      rw [escapedSegment.eq_def]
      simp only [h, if_true, ih]
    · obtain ⟨_, _, h3, h4⟩ := hexDigit_upper b
      have hp : uritemplates.isUnreserved (0x25 : Byte) = false := by decide
      rw [if_neg h]
      simp only [uritemplates.pctEncode, List.cons_append, List.nil_append]
      rw [escapedSegment.eq_def]
      simp only [hp, h3, h4, ih]
      rfl

theorem mem_escape (u : GoString) (c : Byte) (hc : c ∈ uritemplates.escape u) :
    uritemplates.isUnreserved c = true ∨ c = 0x25 := by
  induction u with
  | nil => simp [uritemplates.escape] at hc
  | cons b u ih =>
    rw [escape_cons, List.mem_append] at hc
    rcases hc with hc | hc
    · by_cases h : uritemplates.isUnreserved b = true
      · simp only [h, if_true, List.mem_singleton] at hc
        exact Or.inl (hc ▸ h)
      · obtain ⟨h1, h2, _, _⟩ := hexDigit_upper b
        rw [if_neg h] at hc
        simp only [uritemplates.pctEncode, List.mem_cons, List.mem_singleton] at hc
        rcases hc with hc | hc | hc | hc
        · exact Or.inr hc
        · exact Or.inl (hc ▸ h1)
        · exact Or.inl (hc ▸ h2)
        · simp at hc
    · exact ih hc

theorem Validate_eq {κ β : Type} (s : XPackSecurityPutUserService κ β) :
    s.Validate =
      match s.username, s.body with
      | [], none => some (.errorString (goStr "missing required fields: [Name Body]"))
      | [], some _ => some (.errorString (goStr "missing required fields: [Name]"))
      | _ :: _, none => some (.errorString (goStr "missing required fields: [Body]"))
      | _ :: _, some _ => none := by
  obtain ⟨c, p, u, b⟩ := s
  cases u <;> cases b <;> simp [XPackSecurityPutUserService.Validate] <;> decide

theorem Validate_eq_none_iff {κ β : Type} (s : XPackSecurityPutUserService κ β) :
    s.Validate = none ↔ s.username ≠ [] ∧ s.body ≠ none := by
  rw [Validate_eq]
  obtain ⟨c, p, u, b⟩ := s
  cases u <;> cases b <;> simp

theorem Do_of_valid {κ β : Type} (s : XPackSecurityPutUserService κ β) (ctx : κ)
    (hv : s.Validate = none) :
    s.Do ctx =
      match s.client.PerformRequest ctx s.request with
      | .error err => { response := none, err := some err, trace := [.performRequest s.request] }
      | .ok res =>
        match json.Unmarshal res.Body { User := { Created := false } } with
        | (_, some err) =>
          { response := none, err := some err,
            trace := [.performRequest s.request, .jsonUnmarshal res.Body] }
        | (ret, none) =>
          { response := some ret, err := none,
            trace := [.performRequest s.request, .jsonUnmarshal res.Body] } := by
  unfold XPackSecurityPutUserService.Do XPackSecurityPutUserService.request
  rw [hv]
  simp only [buildURL_eq]

theorem Do_trace_of_valid {κ β : Type} (s : XPackSecurityPutUserService κ β) (ctx : κ)
    (hv : s.Validate = none) :
    (s.Do ctx).trace = [.performRequest s.request] ∨
    ∃ data, (s.Do ctx).trace = [.performRequest s.request, .jsonUnmarshal data] := by
  rw [Do_of_valid s ctx hv]
  split
  · exact Or.inl rfl
  · split <;> exact Or.inr ⟨_, rfl⟩

/-! ## Validate -/

/-- C2: `Validate` returns an error exactly when the username is empty or the body is nil,
and its message lists every missing field: `[Name]`, `[Body]` or `[Name Body]`. -/
theorem Validate_lists_every_missing_field {κ β : Type}
    (s : XPackSecurityPutUserService κ β) :
    (s.Validate ≠ none ↔ (s.username = [] ∨ s.body = none)) ∧
    s.Validate =
      match s.username, s.body with
      | [], none => some (.errorString (goStr "missing required fields: [Name Body]"))
      | [], some _ => some (.errorString (goStr "missing required fields: [Name]"))
      | _ :: _, none => some (.errorString (goStr "missing required fields: [Body]"))
      | _ :: _, some _ => none := by
  refine ⟨?_, Validate_eq s⟩
  rw [Ne, Validate_eq_none_iff]
  by_cases h1 : s.username = [] <;> by_cases h2 : s.body = none <;> simp [h1, h2]

/-! ## Do on an invalid service -/

/-- C3: when the username is empty or the body is nil, `Do` returns a nil response and the
error of `Validate`, whatever the transport, and performs no request. -/
theorem Do_invalid_performs_no_request {κ β : Type} (s : XPackSecurityPutUserService κ β)
    (ctx : κ) (h : s.username = [] ∨ s.body = none) :
    (s.Do ctx).response = none ∧ (s.Do ctx).err = s.Validate ∧ s.Validate ≠ none ∧
    (s.Do ctx).trace = [] ∧ requestCount (s.Do ctx).trace = 0 := by
  have hv : s.Validate ≠ none := by
    rw [Ne, Validate_eq_none_iff]
    rcases h with h | h <;> simp [h]
  obtain ⟨err, herr⟩ := Option.ne_none_iff_exists'.mp hv
  simp [XPackSecurityPutUserService.Do, herr, requestCount]

theorem Do_invalid_performs_no_request_witness :
    ((exampleService (.ok ⟨200, goStr "\x7b\"created\": true\x7d"⟩) [] true none).username = [] ∨
      (exampleService (.ok ⟨200, goStr "\x7b\"created\": true\x7d"⟩) [] true none).body = none) ∧
    ((exampleService (.ok ⟨200, goStr "\x7b\"created\": true\x7d"⟩) [] true none).Do ()).err =
      some (.errorString (goStr "missing required fields: [Name Body]")) ∧
    requestCount
      ((exampleService (.ok ⟨200, goStr "\x7b\"created\": true\x7d"⟩) [] true none).Do ()).trace = 0 :=
  ⟨Or.inl rfl,
   (Do_invalid_performs_no_request _ () (Or.inl rfl)).2.1.trans (by decide),
   (Do_invalid_performs_no_request _ () (Or.inl rfl)).2.2.2.2⟩

/-! ## buildURL -/

/-- C4: for a username made of unreserved characters only, `buildURL` returns no error, the
path `/_security/user/` followed by the username unchanged, and as query parameters exactly
`pretty=true` when the flag is set and nothing when it is not. -/
theorem buildURL_unreserved_username {κ β : Type} (s : XPackSecurityPutUserService κ β)
    (h : ∀ b ∈ s.username, uritemplates.isUnreserved b = true) :
    s.buildURL = (goStr "/_security/user/" ++ s.username,
      (if s.pretty then [(goStr "pretty", [goStr "true"])] else []), none) := by
  rw [buildURL_eq, escape_unreserved _ h]
  rfl

set_option maxRecDepth 100000 in
theorem buildURL_unreserved_username_witness :
    (∀ b ∈ (exampleService (.error (.other 0)) (goStr "alice") true none).username,
      uritemplates.isUnreserved b = true) ∧
    (exampleService (.error (.other 0)) (goStr "alice") true none).buildURL =
      (goStr "/_security/user/alice", [(goStr "pretty", [goStr "true"])], none) :=
  ⟨by decide, (buildURL_unreserved_username _ (by decide)).trans (by decide)⟩

/-- C5: the path of `buildURL` is `/_security/user/` followed by the username in which every
byte outside the unreserved set is replaced by `%HH` with two upper-case hexadecimal digits;
the rendered segment consists of unreserved characters and such escapes only, so it has no
`/`, `?` or `#` and no `%` that does not start an escape; `a/b` renders as
`/_security/user/a%2Fb`. -/
theorem buildURL_percent_encodes_username {κ β : Type}
    (s : XPackSecurityPutUserService κ β) :
    s.buildURL.1 = goStr "/_security/user/" ++
      s.username.flatMap (fun b =>
        if uritemplates.isUnreserved b then [b]
        else [0x25, uritemplates.hexDigit (b.val / 16), uritemplates.hexDigit (b.val % 16)]) ∧
    escapedSegment (s.buildURL.1.drop (goStr "/_security/user/").length) = true ∧
    (∀ c ∈ s.buildURL.1.drop (goStr "/_security/user/").length,
      uritemplates.isUnreserved c = true ∨ c = 0x25) ∧
    (0x2F : Byte) ∉ s.buildURL.1.drop (goStr "/_security/user/").length ∧
    (0x3F : Byte) ∉ s.buildURL.1.drop (goStr "/_security/user/").length ∧
    (0x23 : Byte) ∉ s.buildURL.1.drop (goStr "/_security/user/").length ∧
    (exampleService (.error (.other 0)) (goStr "a/b") false none).buildURL.1 =
      goStr "/_security/user/a%2Fb" := by
  have hd : (s.buildURL.1).drop (goStr "/_security/user/").length =
      uritemplates.escape s.username := by
    rw [buildURL_eq]
    exact List.drop_left _ _
  have hno : ∀ c : Byte, uritemplates.isUnreserved c = false → c ≠ 0x25 →
      c ∉ uritemplates.escape s.username := by
    intro c h1 h2 hc
    rcases mem_escape _ c hc with h | h
    · rw [h1] at h; exact Bool.false_ne_true h
    · exact h2 h
  rw [hd]
  refine ⟨?_, escapedSegment_escape _, mem_escape _, hno _ (by decide) (by decide),
    hno _ (by decide) (by decide), hno _ (by decide) (by decide), by decide⟩
  rw [buildURL_eq]
  rfl

/-- C10: for every username `buildURL` returns a nil error, the path is `/_security/user/`
followed by a segment whose percent-decoding is the username, and two services render the
same path exactly when their usernames are equal. -/
theorem buildURL_path_determines_username {κ β : Type}
    (s t : XPackSecurityPutUserService κ β) :
    s.buildURL.2.2 = none ∧
    (goStr "/_security/user/").isPrefixOf s.buildURL.1 = true ∧
    pctDecode (s.buildURL.1.drop (goStr "/_security/user/").length) = s.username ∧
    (s.buildURL.1 = t.buildURL.1 ↔ s.username = t.username) := by
  have hd : ∀ r : XPackSecurityPutUserService κ β,
      pctDecode (r.buildURL.1.drop (goStr "/_security/user/").length) = r.username := by
    intro r
    rw [buildURL_eq]
    exact (congrArg pctDecode (List.drop_left _ _)).trans (pctDecode_escape _)
  refine ⟨by rw [buildURL_eq], ?_, hd s, ?_, ?_⟩
  · rw [buildURL_eq]
    exact List.isPrefixOf_iff_prefix.mpr (List.prefix_append _ _)
  · intro h
    rw [← hd s, ← hd t, h]
  · intro h
    rw [buildURL_eq, buildURL_eq, h]

/-! ## Do on a valid service -/

/-- C6: a service that passes `Validate` performs exactly one request: its method is `PUT`,
its path and query parameters are those of `buildURL`, its body is the stored payload. -/
theorem Do_valid_performs_one_PUT {κ β : Type} (s : XPackSecurityPutUserService κ β)
    (ctx : κ) (hv : s.Validate = none) :
    s.buildURL.2.2 = none ∧
    requestCount (s.Do ctx).trace = 1 ∧
    ∃ rest, (s.Do ctx).trace =
      .performRequest { Method := goStr "PUT", Path := s.buildURL.1,
                        Params := s.buildURL.2.1, Body := s.body } :: rest ∧
      requestCount rest = 0 := by
  refine ⟨by rw [buildURL_eq], ?_⟩
  rcases Do_trace_of_valid s ctx hv with h | ⟨data, h⟩ <;> rw [h] <;>
    exact ⟨rfl, _, rfl, rfl⟩

set_option maxRecDepth 100000 in
theorem Do_valid_performs_one_PUT_witness :
    (exampleService (.error (.other 7)) (goStr "a/b") true (some ())).Validate = none ∧
    ∃ rest, ((exampleService (.error (.other 7)) (goStr "a/b") true (some ())).Do ()).trace =
      .performRequest { Method := goStr "PUT", Path := goStr "/_security/user/a%2Fb",
                        Params := [(goStr "pretty", [goStr "true"])], Body := some () } :: rest ∧
      requestCount rest = 0 :=
  ⟨by decide, Do_valid_performs_one_PUT _ () (by decide) |>.2.2⟩

/-- C7: when the request of a valid service fails with an error `e`, `Do` returns a nil
response and that very error, and does not call the JSON decoder. -/
theorem Do_returns_transport_error {κ β : Type} (s : XPackSecurityPutUserService κ β)
    (ctx : κ) (e : GoError) (hv : s.Validate = none)
    (he : s.client.PerformRequest ctx
      { Method := goStr "PUT", Path := s.buildURL.1, Params := s.buildURL.2.1,
        Body := s.body } = .error e) :
    (s.Do ctx).response = none ∧ (s.Do ctx).err = some e ∧
    decodeCount (s.Do ctx).trace = 0 := by
  rw [Do_of_valid s ctx hv]
  unfold XPackSecurityPutUserService.request
  rw [he]
  exact ⟨rfl, rfl, rfl⟩

set_option maxRecDepth 100000 in
theorem Do_returns_transport_error_witness :
    ((exampleService (.error (.errorString (goStr "context canceled"))) (goStr "alice") false
      (some ())).Do ()).response = none ∧
    ((exampleService (.error (.errorString (goStr "context canceled"))) (goStr "alice") false
      (some ())).Do ()).err = some (.errorString (goStr "context canceled")) ∧
    decodeCount ((exampleService (.error (.errorString (goStr "context canceled")))
      (goStr "alice") false (some ())).Do ()).trace = 0 :=
  Do_returns_transport_error _ () _ (by decide) rfl

/-! ## The decoder on a value that is no object -/

theorem parseValue_kind (fuel : Nat) (input rest r : GoString) (v : json.Value) (b : Byte)
    (h : json.parseValue fuel input = some (v, rest)) (hs : json.skipSpace input = b :: r)
    (h1 : b.val ≠ 0x7B) (h2 : b.val ≠ 0x6E) : v.isObjectOrNull = false := by
  cases fuel with
  | zero => rw [json.parseValue] at h; cases h
  | succ f =>
    rw [json.parseValue, hs] at h
    dsimp only at h
    rw [if_neg h1] at h
    split at h
    · split at h
      · cases h
      · split at h
        · simp only [Option.some.injEq, Prod.mk.injEq] at h
          rw [← h.1]; rfl
        · obtain ⟨p, _, hp⟩ := Option.map_eq_some'.mp h
          simp only [Prod.mk.injEq] at hp
          rw [← hp.1]; rfl
    · split at h
      · obtain ⟨p, _, hp⟩ := Option.map_eq_some'.mp h
        simp only [Prod.mk.injEq] at hp
        rw [← hp.1]; rfl
      · split at h
        · obtain ⟨p, _, hp⟩ := Option.map_eq_some'.mp h
          simp only [Prod.mk.injEq] at hp
          rw [← hp.1]; rfl
        · split at h
          · obtain ⟨p, _, hp⟩ := Option.map_eq_some'.mp h
            simp only [Prod.mk.injEq] at hp
            rw [← hp.1]; rfl
          · split at h
            · obtain ⟨p, _, hp⟩ := Option.map_eq_some'.mp h
              simp only [Prod.mk.injEq] at hp
              rw [← hp.1]; rfl
            · cases h

set_option maxRecDepth 100000 in
theorem numberStart_not_n (b : Byte) (h : b.val = 0x2D ∨ grammar.Digit b) : b.val ≠ 0x6E := by
  unfold grammar.Digit at h
  revert b; decide

theorem value_head_kind {v : GoString} (h : grammar.Derives .value v)
    (hobj : ¬ grammar.IsObject v) (hnull : v ≠ goStr "null") :
    ∃ b r, v = b :: r ∧ json.isSpace b = false ∧ b.val ≠ 0x7B ∧ b.val ≠ 0x6E := by
  cases h with
  | null => exact absurd rfl hnull
  | true => exact ⟨0x74, _, rfl, by decide, by decide, by decide⟩
  | false => exact ⟨0x66, _, rfl, by decide, by decide, by decide⟩
  | number t hn =>
    obtain ⟨b, r, ht, hb⟩ := number_head hn
    obtain ⟨h1, h2, _⟩ := numberStart_byte b hb
    exact ⟨b, r, ht, h1, h2, numberStart_not_n b hb⟩
  | string cs _ => exact ⟨0x22, _, rfl, by decide, by decide, by decide⟩
  | emptyArray w _ => exact ⟨0x5B, _, rfl, by decide, by decide, by decide⟩
  | array es _ => exact ⟨0x5B, _, rfl, by decide, by decide, by decide⟩
  | emptyObject w hw => exact absurd ⟨w, rfl, Or.inl hw⟩ hobj
  | object ms hms => exact absurd ⟨ms, rfl, Or.inr hms⟩ hobj

theorem Unmarshal_non_object (data : GoString) (ret : XPackSecurityPutUserResponse)
    (v : json.Value) (hp : json.parse data = some v) (hk : v.isObjectOrNull = false) :
    (json.Unmarshal data ret).2 = some (.unmarshalTypeError v.describe) := by
  cases v <;> simp [json.Value.isObjectOrNull] at hk <;>
    simp [json.Unmarshal, hp, json.storeResponse, json.decodeState.saveError]

theorem Unmarshal_of_TextOf (data t : GoString) (ret : XPackSecurityPutUserResponse)
    (hj : grammar.TextOf data t) (hobj : ¬ grammar.IsObject t) (hnull : t ≠ goStr "null") :
    ∃ e, (json.Unmarshal data ret).2 = some e ∧ e.isDecodeError = true := by
  cases hp : json.parse data with
  | none => exact ⟨.syntaxError, by simp [json.Unmarshal, hp], rfl⟩
  | some v =>
    obtain ⟨w1, w2, hdata, hw1, ht, _⟩ := hj
    obtain ⟨b, r, hb, hsp, h1, h2⟩ := value_head_kind ht hobj hnull
    have hs : json.skipSpace data = b :: (r ++ w2) := by
      rw [hdata, hb, List.append_assoc, List.cons_append]
      exact skipSpace_ws_cons _ _ _ hw1 hsp
    have hk : v.isObjectOrNull = false := by
      unfold json.parse at hp
      cases hv : json.parseValue (2 * data.length) data with
      | none => rw [hv] at hp; cases hp
      | some p =>
        obtain ⟨v1, rest⟩ := p
        rw [hv] at hp
        dsimp only at hp
        split at hp
        · simp only [Option.some.injEq] at hp
          subst hp
          exact parseValue_kind _ _ _ _ _ _ hv hs h1 h2
        · cases hp
    exact ⟨_, Unmarshal_non_object data ret v hp hk, rfl⟩

theorem maxOpen_replicate (n cur : Nat) (rest : GoString) :
    cur + (n + 1) ≤ json.maxOpen false false cur (List.replicate (n + 1) 0x5B ++ rest) := by
  induction n generalizing cur with
  | zero =>
    rw [List.replicate_succ, List.cons_append, json.maxOpen, if_neg (by decide),
      if_pos (Or.inl (by decide))]
    exact Nat.le_max_left _ _
  | succ n ih =>
    rw [List.replicate_succ, List.cons_append, json.maxOpen, if_neg (by decide),
      if_pos (Or.inl (by decide))]
    have := ih (cur + 1)
    have h2 := Nat.le_max_right (cur + 1)
      (json.maxOpen false false (cur + 1) (List.replicate (n + 1) 0x5B ++ rest))
    omega

theorem Unmarshal_exceeds_max_depth (n : Nat) (rest : GoString)
    (ret : XPackSecurityPutUserResponse) (hn : json.maxNestingDepth < n) :
    json.Unmarshal (List.replicate n 0x5B ++ rest) ret = (ret, some .syntaxError) := by
  obtain ⟨m, rfl⟩ : ∃ m, n = m + 1 := ⟨n - 1, by omega⟩
  have hd := maxOpen_replicate m 0 rest
  cases hp : json.parse (List.replicate (m + 1) 0x5B ++ rest) with
  | none => simp [json.Unmarshal, hp]
  | some v =>
    have := parse_depth _ v hp
    unfold json.nestingDepth at this
    omega

/-! ## Do on the response body -/

theorem Do_of_response {κ β : Type} (s : XPackSecurityPutUserService κ β) (ctx : κ)
    (res : Response) (hv : s.Validate = none)
    (he : s.client.PerformRequest ctx s.request = .ok res) :
    (s.Do ctx).response =
      (match json.Unmarshal res.Body { User := { Created := false } } with
        | (_, some _) => none
        | (ret, none) => some ret) ∧
    (s.Do ctx).err = (json.Unmarshal res.Body { User := { Created := false } }).2 := by
  rw [Do_of_valid s ctx hv, he]
  dsimp only
  generalize json.Unmarshal res.Body { User := { Created := false } } = r
  rcases r with ⟨ret, _ | e⟩ <;> exact ⟨rfl, rfl⟩

set_option maxRecDepth 100000 in
/-- C1: at the body `{"created": true}` the code returns a nil error and a response whose
created flag is false, and so it does at `{"created": false}` and even at
`{"created": "yes"}`: the member `created` is looked for only inside a member `User`, as
in `{"User": {"created": true}}`, which does give true. -/
theorem Do_created_body_yields_false :
    ((exampleService (.ok ⟨200, goStr "\x7b\"created\": true\x7d"⟩) (goStr "alice") false
      (some ())).Do ()).err = none ∧
    ((exampleService (.ok ⟨200, goStr "\x7b\"created\": true\x7d"⟩) (goStr "alice") false
      (some ())).Do ()).response = some { User := { Created := false } } ∧
    ((exampleService (.ok ⟨200, goStr "\x7b\"created\": false\x7d"⟩) (goStr "alice") false
      (some ())).Do ()).response = some { User := { Created := false } } ∧
    ((exampleService (.ok ⟨200, goStr "\x7b\"created\": \"yes\"\x7d"⟩) (goStr "alice") false
      (some ())).Do ()).response = some { User := { Created := false } } ∧
    ((exampleService (.ok ⟨200, goStr "\x7b\"User\": \x7b\"created\": true\x7d\x7d"⟩)
      (goStr "alice") false (some ())).Do ()).response = some { User := { Created := true } } := by
  decide

/-- C8: when the transport of a valid service returns a body that is not a JSON text
(not syntactically valid JSON), `Do` returns a nil response and a syntax error. -/
theorem Do_invalid_json_fails {κ β : Type} (s : XPackSecurityPutUserService κ β) (ctx : κ)
    (res : Response) (hv : s.Validate = none)
    (he : s.client.PerformRequest ctx
      { Method := goStr "PUT", Path := s.buildURL.1, Params := s.buildURL.2.1,
        Body := s.body } = .ok res)
    (hj : ¬ grammar.JSONText res.Body) :
    (s.Do ctx).response = none ∧ (s.Do ctx).err = some .syntaxError := by
  have hp : json.parse res.Body = none := by
    cases hq : json.parse res.Body with
    | none => rfl
    | some v => exact absurd (parse_sound _ v hq) hj
  obtain ⟨h1, h2⟩ := Do_of_response s ctx res hv he
  rw [h1, h2]
  simp [json.Unmarshal, hp]

set_option maxRecDepth 100000 in
theorem Do_invalid_json_fails_witness :
    ¬ grammar.JSONText (goStr "not json") ∧ ¬ grammar.JSONText (goStr "") ∧
    ((exampleService (.ok ⟨200, goStr "not json"⟩) (goStr "alice") false
      (some ())).Do ()).response = none ∧
    ((exampleService (.ok ⟨200, goStr "not json"⟩) (goStr "alice") false
      (some ())).Do ()).err = some .syntaxError ∧
    ((exampleService (.ok ⟨200, goStr ""⟩) (goStr "alice") false
      (some ())).Do ()).response = none :=
  have h1 : ¬ grammar.JSONText (goStr "not json") :=
    fun h => absurd ((Valid_iff_JSONText _).mpr ⟨h, by decide⟩) (by decide)
  have h2 : ¬ grammar.JSONText (goStr "") :=
    fun h => absurd ((Valid_iff_JSONText _).mpr ⟨h, by decide⟩) (by decide)
  ⟨h1, h2,
   (Do_invalid_json_fails _ () ⟨200, goStr "not json"⟩ (by decide) rfl h1).1,
   (Do_invalid_json_fails _ () ⟨200, goStr "not json"⟩ (by decide) rfl h1).2,
   (Do_invalid_json_fails _ () ⟨200, goStr ""⟩ (by decide) rfl h2).1⟩

set_option maxRecDepth 100000 in
/-- C9, as stated, fails: the bodies `{}` and `{"foo": 1}` are JSON texts without a boolean
member `created`, and `Do` returns for each a nil error and a response, not a decode
error. -/
theorem Do_accepts_object_without_created :
    grammar.JSONText (goStr "\x7b\x7d") ∧
    ((exampleService (.ok ⟨200, goStr "\x7b\x7d"⟩) (goStr "alice") false
      (some ())).Do ()).err = none ∧
    ((exampleService (.ok ⟨200, goStr "\x7b\x7d"⟩) (goStr "alice") false
      (some ())).Do ()).response = some { User := { Created := false } } ∧
    grammar.JSONText (goStr "\x7b\"foo\": 1\x7d") ∧
    ((exampleService (.ok ⟨200, goStr "\x7b\"foo\": 1\x7d"⟩) (goStr "alice") false
      (some ())).Do ()).err = none ∧
    ((exampleService (.ok ⟨200, goStr "\x7b\"foo\": 1\x7d"⟩) (goStr "alice") false
      (some ())).Do ()).response = some { User := { Created := false } } :=
  ⟨((Valid_iff_JSONText _).mp (by decide)).1, by decide, by decide,
   ((Valid_iff_JSONText _).mp (by decide)).1, by decide, by decide⟩

/-- C9, amended: when the transport of a valid service returns valid JSON whose value is
neither an object nor `null` (an array, a string, a number, a boolean), `Do` returns a nil
response and a decode error. -/
theorem Do_rejects_non_object_json {κ β : Type} (s : XPackSecurityPutUserService κ β)
    (ctx : κ) (res : Response) (t : GoString) (hv : s.Validate = none)
    (he : s.client.PerformRequest ctx
      { Method := goStr "PUT", Path := s.buildURL.1, Params := s.buildURL.2.1,
        Body := s.body } = .ok res)
    (hj : grammar.TextOf res.Body t) (hobj : ¬ grammar.IsObject t)
    (hnull : t ≠ goStr "null") :
    (s.Do ctx).response = none ∧
    ∃ e, (s.Do ctx).err = some e ∧ e.isDecodeError = true := by
  obtain ⟨h1, h2⟩ := Do_of_response s ctx res hv he
  obtain ⟨e, hE, hd⟩ :=
    Unmarshal_of_TextOf res.Body t { User := { Created := false } } hj hobj hnull
  rw [h1, h2]
  generalize json.Unmarshal res.Body { User := { Created := false } } = r at hE
  rcases r with ⟨ret, _ | e1⟩
  · cases hE
  · exact ⟨rfl, e, hE, hd⟩

set_option maxRecDepth 100000 in
theorem Do_rejects_non_object_json_witness :
    grammar.TextOf (goStr "[]") (goStr "[]") ∧ ¬ grammar.IsObject (goStr "[]") ∧
    goStr "[]" ≠ goStr "null" ∧
    ((exampleService (.ok ⟨200, goStr "[]"⟩) (goStr "alice") false
      (some ())).Do ()).response = none ∧
    ∃ e, ((exampleService (.ok ⟨200, goStr "[]"⟩) (goStr "alice") false
      (some ())).Do ()).err = some e ∧ e.isDecodeError = true :=
  have h1 : grammar.TextOf (goStr "[]") (goStr "[]") :=
    ⟨[], [], rfl, WS_nil, grammar.Derives.emptyArray [] WS_nil, WS_nil⟩
  have h2 : ¬ grammar.IsObject (goStr "[]") := fun ⟨ms, h, _⟩ =>
    have h' : (0x5B : Byte) :: [0x5D] = 0x7B :: (ms ++ [0x7D]) := h
    absurd (List.cons.inj h').1 (by decide)
  have h3 : goStr "[]" ≠ goStr "null" := by decide
  ⟨h1, h2, h3,
   Do_rejects_non_object_json _ () ⟨200, goStr "[]"⟩ (goStr "[]") (by decide) rfl h1 h2 h3⟩

end Elastic
